import Mathlib

/-!
Verification development for trakt-serializd-sync.

This file gives a shallow embedding, in Lean 4, of the core of the
trakt-serializd-sync program: the activity data model and its identity key
(src/trakt_serializd_sync/models.py), the durable ledger
(src/trakt_serializd_sync/state.py), the retry policy
(src/trakt_serializd_sync/retry.py) and the reconciliation engine
(src/trakt_serializd_sync/sync.py).  Remote adapters (the Trakt and
Serializd HTTP clients) are external collaborators: they enter the
embedding as function parameters describing the answers the engine
receives, and every call the engine makes to them is recorded in an
explicit trace so that call-counting properties can be stated.

Conventions of the embedding:
  - Python datetimes become the `DateTime` structure below; comparison is
    lexicographic on the components, as in CPython.
  - Python f-string interpolation of an `int` becomes the explicit decimal
    printer `natChars`; `strftime` patterns become explicit digit lists.
  - Python lists and (insertion-ordered) dicts become Lean lists and
    association lists with first-match lookup.
  - fallible remote operations are modelled by outcome values fed to the
    engine; code that catches an exception locally is translated by case
    analysis on the outcome.
-/

/-- A calendar timestamp, component-wise, standing in for Python's
`datetime.datetime` (year, month, day, hour, minute, second, microsecond). -/
structure DateTime where
  year : Nat
  month : Nat
  day : Nat
  hour : Nat
  minute : Nat
  second : Nat
  microsecond : Nat
deriving DecidableEq, Repr

/-- Python datetime comparison: lexicographic on the seven components. -/
def DateTime.Le (a b : DateTime) : Prop :=
  a.year < b.year ∨ (a.year = b.year ∧
    (a.month < b.month ∨ (a.month = b.month ∧
      (a.day < b.day ∨ (a.day = b.day ∧
        (a.hour < b.hour ∨ (a.hour = b.hour ∧
          (a.minute < b.minute ∨ (a.minute = b.minute ∧
            (a.second < b.second ∨ (a.second = b.second ∧
              a.microsecond ≤ b.microsecond)))))))))))

instance (a b : DateTime) : Decidable (DateTime.Le a b) := by
  unfold DateTime.Le
  exact inferInstance

theorem DateTime.Le_refl (a : DateTime) : DateTime.Le a a := by
  unfold DateTime.Le
  omega

theorem DateTime.Le_trans {a b c : DateTime} (h1 : DateTime.Le a b)
    (h2 : DateTime.Le b c) : DateTime.Le a c := by
  unfold DateTime.Le at h1 h2 ⊢
  omega

theorem DateTime.Le_total (a b : DateTime) :
    DateTime.Le a b ∨ DateTime.Le b a := by
  unfold DateTime.Le
  omega

/-- Python `max(...)` over a non-empty sequence of datetimes: start from the
first element and replace the current value whenever a strictly larger item
appears (`item > current`). -/
def pyMax (x : DateTime) (xs : List DateTime) : DateTime :=
  xs.foldl (fun c i => if ¬ DateTime.Le i c then i else c) x

theorem pyMax_cons (x i : DateTime) (is : List DateTime) :
    pyMax x (i :: is) = pyMax (if ¬ DateTime.Le i x then i else x) is := rfl

theorem pyMax_mem (xs : List DateTime) : ∀ x : DateTime, pyMax x xs ∈ x :: xs := by
  induction xs with
  | nil => intro x; simp [pyMax]
  | cons i is ih =>
    intro x
    rw [pyMax_cons]
    have h := ih (if ¬ DateTime.Le i x then i else x)
    by_cases hc : DateTime.Le i x
    · rw [if_neg (not_not_intro hc)] at h ⊢
      rcases List.mem_cons.mp h with h1 | h1
      · simp [h1]
      · simp [List.mem_cons, h1]
    · rw [if_pos hc] at h ⊢
      rcases List.mem_cons.mp h with h1 | h1
      · simp [h1]
      · simp [List.mem_cons, h1]

theorem pyMax_isUB (xs : List DateTime) :
    ∀ x : DateTime, ∀ t ∈ x :: xs, DateTime.Le t (pyMax x xs) := by
  induction xs with
  | nil => intro x t ht; simp at ht; simp [pyMax, ht, DateTime.Le_refl]
  | cons i is ih =>
    intro x t ht
    rw [pyMax_cons]
    have hstep : DateTime.Le x (if ¬ DateTime.Le i x then i else x) ∧
        DateTime.Le i (if ¬ DateTime.Le i x then i else x) := by
      by_cases hc : DateTime.Le i x
      · rw [if_neg (not_not_intro hc)]
        exact ⟨DateTime.Le_refl x, hc⟩
      · rw [if_pos hc]
        rcases DateTime.Le_total i x with h | h
        · exact absurd h hc
        · exact ⟨h, DateTime.Le_refl i⟩
    have hself : DateTime.Le (if ¬ DateTime.Le i x then i else x)
        (pyMax (if ¬ DateTime.Le i x then i else x) is) :=
      ih _ _ (List.mem_cons_self _ _)
    rcases List.mem_cons.mp ht with rfl | ht1
    · exact DateTime.Le_trans hstep.1 hself
    · rcases List.mem_cons.mp ht1 with rfl | ht2
      · exact DateTime.Le_trans hstep.2 hself
      · exact ih _ t (List.mem_cons_of_mem _ ht2)

/-- Comparison lifted to optional watermarks: an absent watermark is below
everything, and a present watermark may never be followed by an absent one. -/
def OLe : Option DateTime → Option DateTime → Prop
  | none, _ => True
  | some _, none => False
  | some a, some b => DateTime.Le a b

/-- Python `str(n)` for a machine integer, fuel-driven so that it is
structurally recursive: emit the low decimal digit and recurse on `n / 10`.
The fuel `n + 1` always suffices since `n / 10 < n` for positive `n`. -/
def natStrCore : Nat → Nat → List Char → List Char
  | 0, _, acc => acc
  | fuel + 1, n, acc =>
    let d := Nat.digitChar (n % 10)
    if n / 10 = 0 then d :: acc
    else natStrCore fuel (n / 10) (d :: acc)

/-- The decimal digits of `n`, most significant first: the translation of
Python string interpolation `f"{n}"` for a non-negative integer. -/
def natChars (n : Nat) : List Char := natStrCore (n + 1) n []

/-- Reference form of the decimal printer, by well-founded recursion on the
value; used only in proofs about `natChars`. -/
def digitsRev (n : Nat) : List Char :=
  if h : n / 10 = 0 then [Nat.digitChar (n % 10)]
  else digitsRev (n / 10) ++ [Nat.digitChar (n % 10)]
termination_by n
decreasing_by
  omega

theorem digitsRev_eq (n : Nat) : digitsRev n =
    if n / 10 = 0 then [Nat.digitChar (n % 10)]
    else digitsRev (n / 10) ++ [Nat.digitChar (n % 10)] := by
  rw [digitsRev]
  by_cases h : n / 10 = 0 <;> simp [h]

theorem natStrCore_eq_digitsRev :
    ∀ (fuel n : Nat) (acc : List Char), n < fuel →
      natStrCore fuel n acc = digitsRev n ++ acc := by
  intro fuel
  induction fuel with
  | zero => intro n acc h; omega
  | succ f ih =>
    intro n acc h
    simp only [natStrCore]
    by_cases h0 : n / 10 = 0
    · simp [h0, digitsRev_eq n]
    · have hn10 : n / 10 < n := by omega
      have hlt : n / 10 < f := by omega
      rw [if_neg h0, ih (n / 10) _ hlt, digitsRev_eq n, if_neg h0,
        List.append_assoc]
      simp

theorem natChars_eq_digitsRev (n : Nat) : natChars n = digitsRev n := by
  have h := natStrCore_eq_digitsRev (n + 1) n [] (by omega)
  simpa [natChars] using h

theorem digitChar_inj : ∀ a : Nat, a < 10 → ∀ b : Nat, b < 10 →
    Nat.digitChar a = Nat.digitChar b → a = b := by decide

theorem digitChar_ne_colon : ∀ a : Nat, a < 10 → Nat.digitChar a ≠ ':' := by
  decide

theorem digitsRev_ne_nil (n : Nat) : digitsRev n ≠ [] := by
  rw [digitsRev_eq]
  split <;> simp

theorem digitsRev_inj : ∀ m n : Nat, digitsRev m = digitsRev n → m = n := by
  intro m
  induction m using Nat.strong_induction_on with
  | _ m ih =>
    intro n h
    rw [digitsRev_eq m, digitsRev_eq n] at h
    by_cases hm : m / 10 = 0 <;> by_cases hn : n / 10 = 0
    · rw [if_pos hm, if_pos hn] at h
      have := digitChar_inj (m % 10) (by omega) (n % 10) (by omega)
        (by simpa using h)
      omega
    · rw [if_pos hm, if_neg hn] at h
      have hl := congrArg List.length h
      rw [List.length_append, List.length_singleton, List.length_singleton] at hl
      exact absurd (List.length_eq_zero.mp (by omega))
        (digitsRev_ne_nil (n / 10))
    · rw [if_neg hm, if_pos hn] at h
      have hl := congrArg List.length h
      rw [List.length_append, List.length_singleton, List.length_singleton] at hl
      exact absurd (List.length_eq_zero.mp (by omega))
        (digitsRev_ne_nil (m / 10))
    · rw [if_neg hm, if_neg hn] at h
      have hpair := List.append_inj' h (by simp)
      have h1 : m / 10 = n / 10 := ih (m / 10) (by omega) (n / 10) hpair.1
      have h2 : m % 10 = n % 10 :=
        digitChar_inj (m % 10) (by omega) (n % 10) (by omega)
          (by simpa using hpair.2)
      omega

theorem digitsRev_colonFree (n : Nat) : ∀ c ∈ digitsRev n, c ≠ ':' := by
  induction n using Nat.strong_induction_on with
  | _ n ih =>
    intro c hc
    rw [digitsRev_eq n] at hc
    by_cases h0 : n / 10 = 0
    · rw [if_pos h0] at hc
      simp at hc
      subst hc
      exact digitChar_ne_colon (n % 10) (by omega)
    · rw [if_neg h0] at hc
      rcases List.mem_append.mp hc with h1 | h1
      · exact ih (n / 10) (by omega) c h1
      · simp at h1
        subst h1
        exact digitChar_ne_colon (n % 10) (by omega)

theorem natChars_inj {m n : Nat} (h : natChars m = natChars n) : m = n := by
  rw [natChars_eq_digitsRev, natChars_eq_digitsRev] at h
  exact digitsRev_inj m n h

theorem natChars_colonFree (n : Nat) : ∀ c ∈ natChars n, c ≠ ':' := by
  rw [natChars_eq_digitsRev]
  exact digitsRev_colonFree n

/-- Splitting a colon-joined pair is unambiguous when neither left component
contains a colon. -/
theorem colon_split :
    ∀ (xs ys u v : List Char), (∀ c ∈ xs, c ≠ ':') → (∀ c ∈ ys, c ≠ ':') →
      xs ++ ':' :: u = ys ++ ':' :: v → xs = ys ∧ u = v := by
  intro xs
  induction xs with
  | nil =>
    intro ys u v _ hy h
    cases ys with
    | nil => simpa using h
    | cons y ys' =>
      simp at h
      exact absurd h.1.symm (hy y (by simp))
  | cons x xs' ih =>
    intro ys u v hx hy h
    cases ys with
    | nil =>
      simp at h
      exact absurd h.1 (hx x (by simp))
    | cons y ys' =>
      simp at h
      obtain ⟨hxy, hrest⟩ := h
      have := ih ys' u v (fun c hc => hx c (by simp [hc]))
        (fun c hc => hy c (by simp [hc])) hrest
      exact ⟨by simp [hxy, this.1], this.2⟩

/-- Two zero-padded decimal digits, the translation of the strftime
patterns for month and day in a valid date (the value is below 100). -/
def twoDigits (n : Nat) : List Char :=
  [Nat.digitChar (n / 10), Nat.digitChar (n % 10)]

/-- Four zero-padded decimal digits, the translation of the strftime
year pattern for a Python datetime year (1 to 9999). -/
def fourDigits (n : Nat) : List Char :=
  [Nat.digitChar (n / 1000), Nat.digitChar (n / 100 % 10),
   Nat.digitChar (n / 10 % 10), Nat.digitChar (n % 10)]

/-- The strftime date used inside the identity key: the calendar day of
the timestamp, formatted as four year digits, two month digits and two
day digits separated by dashes. -/
def fmtDateChars (d : DateTime) : List Char :=
  fourDigits d.year ++ '-' :: (twoDigits d.month ++ '-' :: twoDigits d.day)

theorem digitChar_ne_colon' (k : Nat) : Nat.digitChar k ≠ ':' := by
  by_cases h : k < 16
  · interval_cases k <;> decide
  · have hstar : Nat.digitChar k = '*' := by
      unfold Nat.digitChar
      rw [if_neg (by omega : ¬ (k = 0)), if_neg (by omega : ¬ (k = 1)),
        if_neg (by omega : ¬ (k = 2)), if_neg (by omega : ¬ (k = 3)),
        if_neg (by omega : ¬ (k = 4)), if_neg (by omega : ¬ (k = 5)),
        if_neg (by omega : ¬ (k = 6)), if_neg (by omega : ¬ (k = 7)),
        if_neg (by omega : ¬ (k = 8)), if_neg (by omega : ¬ (k = 9)),
        if_neg (by omega : ¬ (k = 10)), if_neg (by omega : ¬ (k = 11)),
        if_neg (by omega : ¬ (k = 12)), if_neg (by omega : ¬ (k = 13)),
        if_neg (by omega : ¬ (k = 14)), if_neg (by omega : ¬ (k = 15))]
    rw [hstar]
    decide

theorem fmtDateChars_colonFree (d : DateTime) :
    ∀ c ∈ fmtDateChars d, c ≠ ':' := by
  intro c hc
  simp [fmtDateChars, fourDigits, twoDigits] at hc
  rcases hc with h | h | h | h | h | h | h | h | h | h <;> subst h <;>
    first
    | exact digitChar_ne_colon' _
    | decide

theorem fmtDateChars_inj (d1 d2 : DateTime)
    (h1y : d1.year < 10000) (h1m : d1.month < 100) (h1d : d1.day < 100)
    (h2y : d2.year < 10000) (h2m : d2.month < 100) (h2d : d2.day < 100)
    (h : fmtDateChars d1 = fmtDateChars d2) :
    d1.year = d2.year ∧ d1.month = d2.month ∧ d1.day = d2.day := by
  simp only [fmtDateChars, fourDigits, twoDigits, List.cons_append,
    List.nil_append, List.cons.injEq, List.append_cancel_left_eq] at h
  obtain ⟨e1, e2, e3, e4, _, e5, e6, _, e7, e8, _⟩ := h
  have g1 := digitChar_inj _ (by omega) _ (by omega) e1
  have g2 := digitChar_inj _ (by omega) _ (by omega) e2
  have g3 := digitChar_inj _ (by omega) _ (by omega) e3
  have g4 := digitChar_inj _ (by omega) _ (by omega) e4
  have g5 := digitChar_inj _ (by omega) _ (by omega) e5
  have g6 := digitChar_inj _ (by omega) _ (by omega) e6
  have g7 := digitChar_inj _ (by omega) _ (by omega) e7
  have g8 := digitChar_inj _ (by omega) _ (by omega) e8
  refine ⟨by omega, by omega, by omega⟩

/-- A single watch event, the canonical cross-platform activity record
(models.py, class WatchActivity).  The rating is on the 1 to 10 scale with
absence meaning no rating; the source tag names the producing platform. -/
structure WatchActivity where
  tmdb_show_id : Nat
  season_number : Nat
  episode_number : Nat
  watched_at : DateTime
  is_rewatch : Bool
  rating : Option Int
  source : String
deriving DecidableEq, Repr

/-- The character content of the identity key
(show):(season):(episode):(YYYY-MM-DD), as built by WatchActivity.key. -/
def WatchActivity.keyChars (a : WatchActivity) : List Char :=
  natChars a.tmdb_show_id ++ ':' ::
    (natChars a.season_number ++ ':' ::
      (natChars a.episode_number ++ ':' :: fmtDateChars a.watched_at))

/-- The identity key of an activity: show id, season, episode and the
calendar day of the watched timestamp, colon-joined (models.py line 41). -/
def WatchActivity.key (a : WatchActivity) : String :=
  String.mk a.keyChars

/-- Python structural equality of two activities, defined solely by the
identity key (models.py, WatchActivity eq, line 50). -/
def WatchActivity.pyEq (a b : WatchActivity) : Bool := a.key = b.key

/-- Python hashing of an activity: a deterministic function of the identity
key alone (models.py, WatchActivity hash, line 47; the builtin string hash
is opaque, so a concrete stand-in over the same key string is used). -/
def WatchActivity.hashVal (a : WatchActivity) : Nat :=
  a.key.data.foldl (fun h c => h * 31 + c.toNat) 0

theorem key_eq_iff (a b : WatchActivity)
    (hay : a.watched_at.year < 10000) (ham : a.watched_at.month < 100)
    (had : a.watched_at.day < 100)
    (hby : b.watched_at.year < 10000) (hbm : b.watched_at.month < 100)
    (hbd : b.watched_at.day < 100) :
    a.key = b.key ↔
      (a.tmdb_show_id = b.tmdb_show_id ∧ a.season_number = b.season_number ∧
        a.episode_number = b.episode_number ∧
        a.watched_at.year = b.watched_at.year ∧
        a.watched_at.month = b.watched_at.month ∧
        a.watched_at.day = b.watched_at.day) := by
  constructor
  · intro h
    have hc : a.keyChars = b.keyChars := by
      have := congrArg String.data h
      simpa [WatchActivity.key] using this
    unfold WatchActivity.keyChars at hc
    obtain ⟨h1, hc⟩ := colon_split _ _ _ _
      (natChars_colonFree a.tmdb_show_id) (natChars_colonFree b.tmdb_show_id) hc
    obtain ⟨h2, hc⟩ := colon_split _ _ _ _
      (natChars_colonFree a.season_number) (natChars_colonFree b.season_number) hc
    obtain ⟨h3, hc⟩ := colon_split _ _ _ _
      (natChars_colonFree a.episode_number) (natChars_colonFree b.episode_number) hc
    have hd := fmtDateChars_inj _ _ hay ham had hby hbm hbd hc
    exact ⟨natChars_inj h1, natChars_inj h2, natChars_inj h3,
      hd.1, hd.2.1, hd.2.2⟩
  · intro h
    obtain ⟨h1, h2, h3, h4, h5, h6⟩ := h
    unfold WatchActivity.key WatchActivity.keyChars fmtDateChars
    rw [h1, h2, h3, h4, h5, h6]

/-- First-match lookup in an association list: the translation of Python
dict lookup (keys are unique in any dict the program builds). -/
def assocGet {α : Type} : List (String × α) → String → Option α
  | [], _ => none
  | p :: rest, k => if p.1 = k then some p.2 else assocGet rest k

/-- Python dict assignment: update the binding in place when the key is
present, append a fresh binding otherwise. -/
def assocSet {α : Type} : List (String × α) → String → α → List (String × α)
  | [], k, v => [(k, v)]
  | p :: rest, k, v => if p.1 = k then (k, v) :: rest else p :: assocSet rest k v

theorem assocGet_append {α : Type} (l1 l2 : List (String × α)) (k : String) :
    assocGet (l1 ++ l2) k =
      match assocGet l1 k with
      | some v => some v
      | none => assocGet l2 k := by
  induction l1 with
  | nil => simp [assocGet]
  | cons p rest ih =>
    by_cases h : p.1 = k <;> simp [assocGet, h, ih]

theorem assocGet_set_self {α : Type} (l : List (String × α)) (k : String)
    (v : α) : assocGet (assocSet l k v) k = some v := by
  induction l with
  | nil => simp [assocSet, assocGet]
  | cons p rest ih =>
    by_cases h : p.1 = k <;> simp [assocSet, assocGet, h, ih]

theorem assocGet_set_ne {α : Type} (l : List (String × α)) (k k' : String)
    (v : α) (h : k ≠ k') : assocGet (assocSet l k v) k' = assocGet l k' := by
  induction l with
  | nil => simp [assocSet, assocGet, h]
  | cons p rest ih =>
    by_cases hp : p.1 = k
    · simp [assocSet, assocGet, hp, h]
    · simp only [assocSet]
      rw [if_neg hp]
      by_cases hp' : p.1 = k'
      · simp [assocGet, hp']
      · simp [assocGet, hp', ih]

/-- The durable ledger (state.py, class SyncState): per-platform
watermarks, the synced-key list, the excluded-key map and the statistics
counters.  Persistence to disk is not modelled; `save` only stamps the
last-sync time. -/
structure SyncState where
  last_sync : Option DateTime
  trakt_last_fetched : Option DateTime
  trakt_last_watched : Option DateTime
  serializd_last_fetched : Option DateTime
  serializd_last_diary : Option DateTime
  synced_activities : List String
  excluded_activities : List (String × String)
  stats : List (String × Nat)
deriving DecidableEq, Repr

/-- The default empty state (state.py, default_state, line 45). -/
def defaultState : SyncState :=
  { last_sync := none
    trakt_last_fetched := none
    trakt_last_watched := none
    serializd_last_fetched := none
    serializd_last_diary := none
    synced_activities := []
    excluded_activities := []
    stats := [("total_syncs", 0), ("trakt_to_serializd", 0),
      ("serializd_to_trakt", 0), ("conflicts_resolved", 0), ("errors", 0),
      ("excluded", 0)] }

/-- An activity counts as handled when its key is in the synced list or in
the excluded map (state.py, is_synced, line 133). -/
def SyncState.is_synced (st : SyncState) (a : WatchActivity) : Prop :=
  a.key ∈ st.synced_activities ∨ (assocGet st.excluded_activities a.key).isSome

instance (st : SyncState) (a : WatchActivity) : Decidable (st.is_synced a) := by
  unfold SyncState.is_synced
  exact inferInstance

/-- state.py, mark_synced, line 148: append the key unless present. -/
def SyncState.mark_synced (st : SyncState) (a : WatchActivity) : SyncState :=
  if a.key ∈ st.synced_activities then st
  else { st with synced_activities := st.synced_activities ++ [a.key] }

/-- state.py, mark_synced_batch, line 154.  The Python routes the list
through a set, which deduplicates exactly as repeated `mark_synced` does;
the set's iteration order is unspecified, so the model fixes insertion
order, preserving membership and count. -/
def SyncState.mark_synced_batch (st : SyncState) (acts : List WatchActivity) :
    SyncState :=
  acts.foldl SyncState.mark_synced st

/-- state.py, increment_stat, line 217. -/
def SyncState.increment_stat (st : SyncState) (stat : String) (amount : Nat) :
    SyncState :=
  { st with stats :=
      assocSet st.stats stat ((assocGet st.stats stat).getD 0 + amount) }

/-- The current value of a statistics counter (missing counters read 0). -/
def SyncState.statsGet (st : SyncState) (stat : String) : Nat :=
  (assocGet st.stats stat).getD 0

/-- state.py, exclude_activity, line 172: insert into the excluded map and
bump the "excluded" counter, only when the key is new. -/
def SyncState.exclude_activity (st : SyncState) (a : WatchActivity)
    (reason : String) : SyncState :=
  if (assocGet st.excluded_activities a.key).isSome then st
  else ({ st with excluded_activities :=
      st.excluded_activities ++ [(a.key, reason)] }).increment_stat "excluded" 1

/-- state.py, exclude_activities_batch, line 183: the per-activity insert,
in iteration order. -/
def SyncState.exclude_activities_batch (st : SyncState)
    (acts : List WatchActivity) (reason : String) : SyncState :=
  acts.foldl (fun s a => s.exclude_activity a reason) st

/-- state.py, clear_exclusions, line 195. -/
def SyncState.clear_exclusions (st : SyncState) : SyncState :=
  { st with excluded_activities := [] }

/-- state.py, synced_count, line 211. -/
def SyncState.synced_count (st : SyncState) : Nat :=
  st.synced_activities.length

/-- state.py, excluded_count, line 200. -/
def SyncState.excluded_count (st : SyncState) : Nat :=
  st.excluded_activities.length

/-- state.py, record_sync, line 227: bump the aggregate counters of one
completed pass. -/
def SyncState.record_sync (st : SyncState) (trakt_to_serializd
    serializd_to_trakt conflicts errors : Nat) : SyncState :=
  ((((st.increment_stat "total_syncs" 1).increment_stat
      "trakt_to_serializd" trakt_to_serializd).increment_stat
      "serializd_to_trakt" serializd_to_trakt).increment_stat
      "conflicts_resolved" conflicts).increment_stat "errors" errors

/-- state.py, save, line 71: stamp the last-sync time (the write of the
JSON document to disk is outside the model). -/
def SyncState.save (st : SyncState) (now : DateTime) : SyncState :=
  { st with last_sync := some now }

theorem mark_synced_mem (st : SyncState) (a : WatchActivity) :
    a.key ∈ (st.mark_synced a).synced_activities := by
  unfold SyncState.mark_synced
  by_cases h : a.key ∈ st.synced_activities <;> simp [h]

theorem mark_synced_mono (st : SyncState) (a : WatchActivity) (k : String)
    (h : k ∈ st.synced_activities) :
    k ∈ (st.mark_synced a).synced_activities := by
  unfold SyncState.mark_synced
  by_cases hc : a.key ∈ st.synced_activities <;> simp [hc, h]

theorem mark_synced_batch_mono (acts : List WatchActivity) :
    ∀ (st : SyncState) (k : String), k ∈ st.synced_activities →
      k ∈ (st.mark_synced_batch acts).synced_activities := by
  induction acts with
  | nil => intro st k hk; exact hk
  | cons c cs ih =>
    intro st k hk
    exact ih (st.mark_synced c) k (mark_synced_mono st c k hk)

theorem mark_synced_batch_mem (acts : List WatchActivity) :
    ∀ (st : SyncState), ∀ a ∈ acts,
      a.key ∈ (st.mark_synced_batch acts).synced_activities := by
  induction acts with
  | nil => intro st a ha; simp at ha
  | cons b rest ih =>
    intro st a ha
    rcases List.mem_cons.mp ha with rfl | ha'
    · exact mark_synced_batch_mono rest (st.mark_synced a) a.key
        (mark_synced_mem st a)
    · exact ih (st.mark_synced b) a ha'

theorem mark_synced_idem (st : SyncState) (a : WatchActivity) :
    (st.mark_synced a).mark_synced a = st.mark_synced a := by
  unfold SyncState.mark_synced
  by_cases h : a.key ∈ st.synced_activities
  · simp [h]
  · simp [h]

theorem mark_synced_of_mem (st : SyncState) (a : WatchActivity)
    (h : a.key ∈ st.synced_activities) : st.mark_synced a = st := by
  unfold SyncState.mark_synced
  simp [h]

theorem mark_synced_batch_of_mem (acts : List WatchActivity) :
    ∀ (st : SyncState), (∀ a ∈ acts, a.key ∈ st.synced_activities) →
      st.mark_synced_batch acts = st := by
  induction acts with
  | nil => intro st _; rfl
  | cons b rest ih =>
    intro st h
    have hb : st.mark_synced b = st := mark_synced_of_mem st b (h b (by simp))
    show (st.mark_synced b).mark_synced_batch rest = st
    rw [hb]
    exact ih st (fun a ha => h a (by simp [ha]))

theorem mark_synced_batch_idem (st : SyncState) (acts : List WatchActivity) :
    (st.mark_synced_batch acts).mark_synced_batch acts =
      st.mark_synced_batch acts :=
  mark_synced_batch_of_mem acts _ (fun a ha => mark_synced_batch_mem acts st a ha)

theorem increment_stat_get (st : SyncState) (stat : String) (n : Nat) :
    (st.increment_stat stat n).statsGet stat = st.statsGet stat + n := by
  unfold SyncState.increment_stat SyncState.statsGet
  simp [assocGet_set_self]

theorem exclude_activity_mem (st : SyncState) (a : WatchActivity) (r : String) :
    (assocGet (st.exclude_activity a r).excluded_activities a.key).isSome := by
  unfold SyncState.exclude_activity
  by_cases h : (assocGet st.excluded_activities a.key).isSome
  · simp [h]
  · simp [h, SyncState.increment_stat, assocGet_append]
    cases hc : assocGet st.excluded_activities a.key with
    | none => simp [assocGet]
    | some v => simp [hc] at h

theorem exclude_activity_of_mem (st : SyncState) (a : WatchActivity)
    (r : String) (h : (assocGet st.excluded_activities a.key).isSome) :
    st.exclude_activity a r = st := by
  unfold SyncState.exclude_activity
  simp [h]

theorem exclude_activity_fresh (st : SyncState) (a : WatchActivity)
    (r : String) (h : assocGet st.excluded_activities a.key = none) :
    (st.exclude_activity a r).excluded_activities =
        st.excluded_activities ++ [(a.key, r)] ∧
      (st.exclude_activity a r).statsGet "excluded" =
        st.statsGet "excluded" + 1 ∧
      (st.exclude_activity a r).synced_activities = st.synced_activities := by
  unfold SyncState.exclude_activity
  rw [if_neg (by simp [h])]
  refine ⟨rfl, ?_, rfl⟩
  have := increment_stat_get
    { st with excluded_activities := st.excluded_activities ++ [(a.key, r)] }
    "excluded" 1
  simpa [SyncState.statsGet] using this

/-- The rating an activity carries, re-encoded for the Serializd request
body: absence becomes 0 (models.py, from_activity, line 111). -/
def ratingToSerializd (rating : Option Int) : Int :=
  match rating with
  | some r => r
  | none => 0

/-- The rating of a Serializd diary entry, decoded to the activity scale:
0 becomes absence (models.py, to_activity, line 152). -/
def ratingToActivity (rating : Int) : Option Int :=
  if rating > 0 then some rating else none

/-- A Trakt history entry as far as conversion cares (models.py, class
TraktHistoryEntry): the watched time plus the identifiers that may be
missing from the nested payload. -/
structure TraktHistoryEntry where
  watched_at : DateTime
  tmdb_show_id : Option Nat
  season_number : Option Nat
  episode_number : Option Nat
deriving DecidableEq, Repr

/-- models.py, TraktHistoryEntry.to_activity, line 221: conversion fails
(None) without a truthy TMDB show id or with a missing season or episode
number; ratings are attached later and rewatch detection is deferred. -/
def TraktHistoryEntry.to_activity (e : TraktHistoryEntry) :
    Option WatchActivity :=
  match e.tmdb_show_id with
  | none => none
  | some t =>
    if t = 0 then none
    else
      match e.season_number, e.episode_number with
      | some s, some n =>
        some { tmdb_show_id := t, season_number := s, episode_number := n,
               watched_at := e.watched_at, is_rewatch := false,
               rating := none, source := "trakt" }
      | _, _ => none

/-- A Serializd diary entry (models.py, class SerializdDiaryEntry). -/
structure SerializdDiaryEntry where
  id : Nat
  show_id : Nat
  season_id : Nat
  season_number : Nat
  episode_number : Nat
  rating : Int
  review_text : String
  is_rewatch : Bool
  date_added : DateTime
  backdate : Option DateTime
deriving DecidableEq, Repr

/-- models.py, SerializdDiaryEntry.to_activity, line 147: prefer the
backdate over the added date, decode the 0-means-none rating. -/
def SerializdDiaryEntry.to_activity (e : SerializdDiaryEntry) : WatchActivity :=
  { tmdb_show_id := e.show_id, season_number := e.season_number,
    episode_number := e.episode_number,
    watched_at := e.backdate.getD e.date_added,
    is_rewatch := e.is_rewatch, rating := ratingToActivity e.rating,
    source := "serializd" }

/-- The rating-join key used when enriching Trakt activities
(sync.py line 149 and trakt.py line 301): show, season and episode,
colon-joined, with no date component. -/
def ratingKey (a : WatchActivity) : String :=
  String.mk (natChars a.tmdb_show_id ++ ':' ::
    (natChars a.season_number ++ ':' :: natChars a.episode_number))

/-- sync.py, fetch_trakt_activities, line 133: convert each history entry,
attach a separately fetched rating when the join key matches, and advance
the Trakt watermark to the maximum watched time of the returned entries
(only when at least one entry was returned). -/
def fetch_trakt_activities (st : SyncState) (history : List TraktHistoryEntry)
    (ratings : List (String × Int)) (now : DateTime) :
    SyncState × List WatchActivity :=
  let activities := history.filterMap (fun e =>
    (e.to_activity).map (fun a =>
      match assocGet ratings (ratingKey a) with
      | some r => { a with rating := some r }
      | none => a))
  let st' :=
    match history with
    | [] => st
    | h :: hs =>
      { st with
        trakt_last_watched :=
          some (pyMax h.watched_at (hs.map (fun e => e.watched_at)))
        trakt_last_fetched := some now }
  (st', activities)

/-- sync.py, fetch_serializd_activities, line 162: convert each diary entry
and advance the Serializd watermark to the maximum added date of the
returned entries (only when at least one entry was returned); a conversion
failure would be skipped, which the total model never exercises. -/
def fetch_serializd_activities (st : SyncState)
    (entries : List SerializdDiaryEntry) (now : DateTime) :
    SyncState × List WatchActivity :=
  let activities := entries.map (fun e => e.to_activity)
  let st' :=
    match entries with
    | [] => st
    | e :: es =>
      { st with
        serializd_last_diary :=
          some (pyMax e.date_added (es.map (fun x => x.date_added)))
        serializd_last_fetched := some now }
  (st', activities)

/-- models.py, class ConflictStrategy. -/
inductive ConflictStrategy where
  | trakt_wins : ConflictStrategy
  | serializd_wins : ConflictStrategy
  | newest_wins : ConflictStrategy
deriving DecidableEq, Repr

/-- models.py, class SyncDirection. -/
inductive SyncDirection where
  | both : SyncDirection
  | trakt_to_serializd : SyncDirection
  | serializd_to_trakt : SyncDirection
deriving DecidableEq, Repr

/-- The key-to-activity index built for each platform (sync.py lines 74
and 75): a Python dict comprehension, so a later duplicate key overwrites
an earlier one. -/
def mapOfActivities (acts : List WatchActivity) : List (String × WatchActivity) :=
  acts.foldl (fun m a => assocSet m a.key a) []

/-- sync.py, detect_conflicts, line 186: for every key present in both
indices, record the pair when the ratings differ and both are non-null.
The Python iterates the intersection as an unordered set; the model fixes
the Trakt index order, which leaves membership unchanged. -/
def detect_conflicts (trakt_map serializd_map : List (String × WatchActivity)) :
    List (WatchActivity × WatchActivity) :=
  trakt_map.filterMap (fun p =>
    match assocGet serializd_map p.1 with
    | none => none
    | some s =>
      if p.2.rating ≠ s.rating then
        if p.2.rating ≠ none ∧ s.rating ≠ none then some (p.2, s) else none
      else none)

/-- sync.py, resolve_conflicts, line 213: per conflict pair, the strategy
chooses the single push; newest-wins compares the full-precision watched
timestamps, ties and Trakt-later push to Serializd. -/
def resolve_conflicts (strategy : ConflictStrategy) :
    List (WatchActivity × WatchActivity) →
      List WatchActivity × List WatchActivity
  | [] => ([], [])
  | (t, s) :: rest =>
    let r := resolve_conflicts strategy rest
    match strategy with
    | .trakt_wins => (t :: r.1, r.2)
    | .serializd_wins => (r.1, s :: r.2)
    | .newest_wins =>
      if DateTime.Le s.watched_at t.watched_at then (t :: r.1, r.2)
      else (r.1, s :: r.2)

/-- What the engine receives from the Serializd season-availability check
(the triple unpacked at sync.py line 288; the adapter itself is not part
of the engine's sources, its contract is
checkAvailability(showId, season) to (available, permanentReason), plus a
season id the engine discards). -/
structure AvailAnswer where
  available : Bool
  reason : Option String
  seasonId : Option Nat
deriving DecidableEq, Repr

/-- The outcome of one add_diary_entry call as the engine observes it
(sync.py lines 313 to 342): returned True, returned False, or raised. -/
inductive DiaryOutcome where
  | success : DiaryOutcome
  | rejected : DiaryOutcome
  | error : DiaryOutcome
deriving DecidableEq, Repr

/-- The (show, season) grouping keys of the pending activities in first
occurrence order: the key order of the Python defaultdict built at
sync.py line 267. -/
def groupKeys (acts : List WatchActivity) : List (Nat × Nat) :=
  acts.foldl (fun ks a =>
    if (a.tmdb_show_id, a.season_number) ∈ ks then ks
    else ks ++ [(a.tmdb_show_id, a.season_number)]) []

/-- The by-season grouping of sync.py line 267: each first-occurrence key
paired with all pending activities of that show and season, in encounter
order (exactly the content of the Python dict of lists). -/
def groupBySeason (acts : List WatchActivity) :
    List ((Nat × Nat) × List WatchActivity) :=
  (groupKeys acts).map (fun k =>
    (k, acts.filter (fun a => (a.tmdb_show_id, a.season_number) = k)))

/-- Result of the apply-to-Serializd phase: the success count the function
returns, the excluded and failed tallies it logs, the final ledger, and
the trace of adapter calls it made. -/
structure S2SOut where
  synced : Nat
  excluded : Nat
  failed : Nat
  state : SyncState
  availCalls : List (Nat × Nat)
  writeCalls : List WatchActivity
deriving DecidableEq, Repr

/-- The per-episode write loop for one available season (sync.py lines 312
to 342): every outcome marks the activity synced; only a True return
counts as synced, the rest count as failed. -/
def s2sMembers (addDiary : WatchActivity → DiaryOutcome) :
    List WatchActivity → SyncState → Nat × Nat × SyncState × List WatchActivity
  | [], st => (0, 0, st, [])
  | a :: rest, st =>
    let st1 := st.mark_synced a
    let r := s2sMembers addDiary rest st1
    match addDiary a with
    | .success => (r.1 + 1, r.2.1, r.2.2.1, a :: r.2.2.2)
    | .rejected => (r.1, r.2.1 + 1, r.2.2.1, a :: r.2.2.2)
    | .error => (r.1, r.2.1 + 1, r.2.2.1, a :: r.2.2.2)

/-- The per-group loop of sync.py lines 286 to 342: one availability check
per group, then the three-way dispatch.  A falsy (absent or empty) reason
on an unavailable season is the transient case and leaves the ledger
untouched; a truthy reason batch-excludes the whole group; an available
season runs the per-episode writes. -/
def s2sGroups (checkAvail : Nat → Nat → AvailAnswer)
    (addDiary : WatchActivity → DiaryOutcome) :
    List ((Nat × Nat) × List WatchActivity) → SyncState → S2SOut
  | [], st => ⟨0, 0, 0, st, [], []⟩
  | g :: rest, st =>
    let showId := g.1.1
    let seasonNum := g.1.2
    let ans := checkAvail showId seasonNum
    if ans.available = false then
      match ans.reason with
      | some r =>
        if r = "" then
          let o := s2sGroups checkAvail addDiary rest st
          ⟨o.synced, o.excluded, o.failed + g.2.length, o.state,
            (showId, seasonNum) :: o.availCalls, o.writeCalls⟩
        else
          let st1 := st.exclude_activities_batch g.2 r
          let o := s2sGroups checkAvail addDiary rest st1
          ⟨o.synced, o.excluded + g.2.length, o.failed, o.state,
            (showId, seasonNum) :: o.availCalls, o.writeCalls⟩
      | none =>
        let o := s2sGroups checkAvail addDiary rest st
        ⟨o.synced, o.excluded, o.failed + g.2.length, o.state,
          (showId, seasonNum) :: o.availCalls, o.writeCalls⟩
    else
      let m := s2sMembers addDiary g.2 st
      let o := s2sGroups checkAvail addDiary rest m.2.2.1
      ⟨m.1 + o.synced, o.excluded, m.2.1 + o.failed, o.state,
        (showId, seasonNum) :: o.availCalls, m.2.2.2 ++ o.writeCalls⟩

/-- sync.py, sync_to_serializd, line 254: dry-run returns immediately with
no effect; otherwise group by season and run the dispatch loop.  The
source's branch for activities without a TMDB id (lines 270 to 283) is
unreachable here because the data model declares the id as a required
integer field. -/
def sync_to_serializd (dry_run : Bool) (checkAvail : Nat → Nat → AvailAnswer)
    (addDiary : WatchActivity → DiaryOutcome) (activities : List WatchActivity)
    (st : SyncState) : S2SOut :=
  if dry_run then ⟨0, 0, 0, st, [], []⟩
  else s2sGroups checkAvail addDiary (groupBySeason activities) st

/-- The outcome of the bulk add_to_history call: a response carrying the
added count and the not-found descriptors, or a raised exception. -/
inductive TraktAddOutcome where
  | ok : Nat → List String → TraktAddOutcome
  | error : TraktAddOutcome
deriving DecidableEq, Repr

/-- The outcome of one add_rating call. -/
inductive RatingOutcome where
  | ok : RatingOutcome
  | error : RatingOutcome
deriving DecidableEq, Repr

/-- Result of the apply-to-Trakt phase: the returned added count, the
final ledger, the bulk calls and rating calls made, and the failed-rating
tally the function logs. -/
structure T2TOut where
  added : Nat
  state : SyncState
  histCalls : List (List WatchActivity)
  ratingCalls : List WatchActivity
  failedRatings : Nat
deriving DecidableEq, Repr

/-- sync.py, sync_to_trakt, line 353: dry-run and the empty batch return
before any adapter call.  One bulk history call covers the whole batch;
whether it succeeds (not-found items included) or raises, every activity
is marked synced; on a raise the function returns zero and skips the
rating loop.  Ratings are then pushed one by one for rated activities,
a per-item failure only being tallied. -/
def sync_to_trakt (dry_run : Bool)
    (addHist : List WatchActivity → TraktAddOutcome)
    (addRating : WatchActivity → RatingOutcome)
    (activities : List WatchActivity) (st : SyncState) : T2TOut :=
  if dry_run then ⟨0, st, [], [], 0⟩
  else if activities.isEmpty then ⟨0, st, [], [], 0⟩
  else
    match addHist activities with
    | .error => ⟨0, st.mark_synced_batch activities, [activities], [], 0⟩
    | .ok added _notFound =>
      let st1 := st.mark_synced_batch activities
      let rated := activities.filter (fun a => a.rating ≠ none)
      let failed := (rated.filter (fun a => addRating a = .error)).length
      ⟨added, st1, [activities], rated, failed⟩

/-- The result summary of one pass (the results dict of sync.py line 55). -/
structure SyncResults where
  trakt_to_serializd : Nat
  serializd_to_trakt : Nat
  conflicts : Nat
  errors : Nat
  excluded : Nat
deriving DecidableEq, Repr

/-- sync.py, SyncEngine.sync, line 45, on its non-raising path: fetch
results arrive as the already converted activity lists; build both
indices, diff each requested direction against the other index and the
ledger, detect and resolve conflicts when the direction is both, apply to
each platform (each guarded on a non-empty push list), then record the
pass and save. -/
def SyncEngine.sync (direction : SyncDirection) (strategy : ConflictStrategy)
    (dry_run : Bool) (checkAvail : Nat → Nat → AvailAnswer)
    (addDiary : WatchActivity → DiaryOutcome)
    (addHist : List WatchActivity → TraktAddOutcome)
    (addRating : WatchActivity → RatingOutcome) (now : DateTime)
    (trakt_activities serializd_activities : List WatchActivity)
    (st : SyncState) : SyncResults × SyncState :=
  let trakt_map := mapOfActivities trakt_activities
  let serializd_map := mapOfActivities serializd_activities
  let to_serializd :=
    if direction = .both ∨ direction = .trakt_to_serializd then
      (trakt_map.filter (fun p =>
        (assocGet serializd_map p.1) = none ∧ ¬ st.is_synced p.2)).map
        (fun p => p.2)
    else []
  let to_trakt :=
    if direction = .both ∨ direction = .serializd_to_trakt then
      (serializd_map.filter (fun p =>
        (assocGet trakt_map p.1) = none ∧ ¬ st.is_synced p.2)).map
        (fun p => p.2)
    else []
  let conflicts :=
    if direction = .both then detect_conflicts trakt_map serializd_map else []
  let resolved :=
    if conflicts.isEmpty then ([], []) else resolve_conflicts strategy conflicts
  let to_serializd := to_serializd ++ resolved.1
  let to_trakt := to_trakt ++ resolved.2
  let conflictCount := conflicts.length
  let r1 :=
    if to_serializd.isEmpty then (⟨0, 0, 0, st, [], []⟩ : S2SOut)
    else sync_to_serializd dry_run checkAvail addDiary to_serializd st
  let r2 :=
    if to_trakt.isEmpty then (⟨0, r1.state, [], [], 0⟩ : T2TOut)
    else sync_to_trakt dry_run addHist addRating to_trakt r1.state
  let results : SyncResults :=
    ⟨r1.synced, r2.added, conflictCount, 0, 0⟩
  let st' := (r2.state.record_sync results.trakt_to_serializd
    results.serializd_to_trakt results.conflicts results.errors).save now
  (results, st')

/-- The failure taxonomy the retry wrapper distinguishes (retry.py):
a Trakt rate limit carrying the server-specified retry-after, one of the
designated retryable exception types, or anything else. -/
inductive RetryErr where
  | rateLimited : ℚ → RetryErr
  | transientErr : Nat → RetryErr
  | fatal : Nat → RetryErr
deriving DecidableEq, Repr

/-- What one invocation of the wrapped operation does: return a value or
raise one of the classified failures. -/
inductive AttemptOutcome (α : Type) where
  | success : α → AttemptOutcome α
  | failure : RetryErr → AttemptOutcome α
deriving DecidableEq, Repr

/-- The observable behaviour of one run of the retry wrapper: the value
returned or failure propagated, the number of times the wrapped operation
was invoked, and the sequence of sleeps performed between attempts. -/
structure RetryTrace (α : Type) where
  result : Except RetryErr α
  calls : Nat
  sleeps : List ℚ
deriving Repr

/-- retry.py, retry_with_backoff, lines 48 to 90, as a recursion over the
remaining retry budget: the operation is a function from the attempt index
to its outcome.  A success returns at once; a non-retryable failure
propagates at once; a rate-limited failure with budget left sleeps the
capped server delay and retries; another retryable failure with budget
left sleeps the capped exponential backoff and retries; with no budget
left the failure is re-raised unchanged. -/
def retryAux {α : Type} (op : Nat → AttemptOutcome α)
    (base_delay max_delay exponential_base : ℚ) :
    Nat → Nat → RetryTrace α
  | attempt, fuel =>
    match op attempt with
    | .success v => ⟨.ok v, 1, []⟩
    | .failure (.fatal i) => ⟨.error (.fatal i), 1, []⟩
    | .failure (.rateLimited ra) =>
      match fuel with
      | 0 => ⟨.error (.rateLimited ra), 1, []⟩
      | f + 1 =>
        let t := retryAux op base_delay max_delay exponential_base
          (attempt + 1) f
        ⟨t.result, t.calls + 1, min ra max_delay :: t.sleeps⟩
    | .failure (.transientErr i) =>
      match fuel with
      | 0 => ⟨.error (.transientErr i), 1, []⟩
      | f + 1 =>
        let t := retryAux op base_delay max_delay exponential_base
          (attempt + 1) f
        ⟨t.result, t.calls + 1,
          min (base_delay * exponential_base ^ attempt) max_delay :: t.sleeps⟩

/-- One run of the decorated call with the given retry budget. -/
def retry_with_backoff {α : Type} (max_retries : Nat)
    (base_delay max_delay exponential_base : ℚ)
    (op : Nat → AttemptOutcome α) : RetryTrace α :=
  retryAux op base_delay max_delay exponential_base 0 max_retries

theorem retryAux_calls_le {α : Type} (op : Nat → AttemptOutcome α)
    (bd md eb : ℚ) :
    ∀ (fuel attempt : Nat), (retryAux op bd md eb attempt fuel).calls ≤ fuel + 1 := by
  intro fuel
  induction fuel with
  | zero =>
    intro attempt
    unfold retryAux
    rcases op attempt with v | e
    · simp
    · rcases e with ra | i | i <;> simp
  | succ f ih =>
    intro attempt
    unfold retryAux
    rcases op attempt with v | e
    · simp
    · rcases e with ra | i | i
      · have := ih (attempt + 1)
        simp only []
        omega
      · have := ih (attempt + 1)
        simp only []
        omega
      · simp

theorem retryAux_sleeps_len {α : Type} (op : Nat → AttemptOutcome α)
    (bd md eb : ℚ) :
    ∀ (fuel attempt : Nat),
      (retryAux op bd md eb attempt fuel).sleeps.length + 1 =
        (retryAux op bd md eb attempt fuel).calls := by
  intro fuel
  induction fuel with
  | zero =>
    intro attempt
    unfold retryAux
    rcases op attempt with v | e
    · simp
    · rcases e with ra | i | i <;> simp
  | succ f ih =>
    intro attempt
    unfold retryAux
    rcases op attempt with v | e
    · simp
    · rcases e with ra | i | i
      · have := ih (attempt + 1)
        simp only [List.length_cons]
        omega
      · have := ih (attempt + 1)
        simp only [List.length_cons]
        omega
      · simp

theorem retryAux_calls_pos {α : Type} (op : Nat → AttemptOutcome α)
    (bd md eb : ℚ) (fuel attempt : Nat) :
    1 ≤ (retryAux op bd md eb attempt fuel).calls := by
  have h := retryAux_sleeps_len op bd md eb fuel attempt
  omega

theorem retryAux_sleeps_spec {α : Type} (op : Nat → AttemptOutcome α)
    (bd md eb : ℚ) :
    ∀ (fuel attempt j : Nat),
      j < (retryAux op bd md eb attempt fuel).sleeps.length →
      ((∃ ra, op (attempt + j) = .failure (.rateLimited ra) ∧
        (retryAux op bd md eb attempt fuel).sleeps.getD j 0 = min ra md) ∨
      (∃ i, op (attempt + j) = .failure (.transientErr i) ∧
        (retryAux op bd md eb attempt fuel).sleeps.getD j 0 =
          min (bd * eb ^ (attempt + j)) md)) := by
  intro fuel
  induction fuel with
  | zero =>
    intro attempt j hj
    exfalso
    revert hj
    unfold retryAux
    rcases op attempt with v | e
    · simp
    · rcases e with ra | i | i <;> simp
  | succ f ih =>
    intro attempt j
    unfold retryAux
    rcases hop : op attempt with v | e
    · simp
    · rcases e with ra | i | i
      · simp only []
        intro hj
        match j with
        | 0 =>
          left
          exact ⟨ra, by simpa using hop, rfl⟩
        | j' + 1 =>
          have hj' : j' <
              (retryAux op bd md eb (attempt + 1) f).sleeps.length := by
            simpa using hj
          have h := ih (attempt + 1) j' hj'
          have harith : attempt + 1 + j' = attempt + (j' + 1) := by omega
          rw [harith] at h
          simpa using h
      · simp only []
        intro hj
        match j with
        | 0 =>
          right
          exact ⟨i, by simpa using hop, rfl⟩
        | j' + 1 =>
          have hj' : j' <
              (retryAux op bd md eb (attempt + 1) f).sleeps.length := by
            simpa using hj
          have h := ih (attempt + 1) j' hj'
          have harith : attempt + 1 + j' = attempt + (j' + 1) := by omega
          rw [harith] at h
          simpa using h
      · simp

theorem retryAux_result_err {α : Type} (op : Nat → AttemptOutcome α)
    (bd md eb : ℚ) :
    ∀ (fuel attempt : Nat) (e : RetryErr),
      (retryAux op bd md eb attempt fuel).result = .error e →
      op (attempt + ((retryAux op bd md eb attempt fuel).calls - 1)) =
        .failure e := by
  intro fuel
  induction fuel with
  | zero =>
    intro attempt e
    unfold retryAux
    rcases hop : op attempt with v | e'
    · simp
    · rcases e' with ra | i | i <;>
        · simp only []
          intro h
          cases h
          simpa using hop
  | succ f ih =>
    intro attempt e
    unfold retryAux
    rcases hop : op attempt with v | e'
    · simp
    · rcases e' with ra | i | i
      · simp only []
        intro h
        have hpos := retryAux_calls_pos op bd md eb f (attempt + 1)
        have harith : attempt +
            ((retryAux op bd md eb (attempt + 1) f).calls + 1 - 1) =
              attempt + 1 +
                ((retryAux op bd md eb (attempt + 1) f).calls - 1) := by omega
        rw [harith]
        exact ih (attempt + 1) e h
      · simp only []
        intro h
        have hpos := retryAux_calls_pos op bd md eb f (attempt + 1)
        have harith : attempt +
            ((retryAux op bd md eb (attempt + 1) f).calls + 1 - 1) =
              attempt + 1 +
                ((retryAux op bd md eb (attempt + 1) f).calls - 1) := by omega
        rw [harith]
        exact ih (attempt + 1) e h
      · simp only []
        intro h
        cases h
        simpa using hop

theorem retryAux_fatal {α : Type} (op : Nat → AttemptOutcome α)
    (bd md eb : ℚ) :
    ∀ (fuel attempt j i : Nat),
      j < (retryAux op bd md eb attempt fuel).calls →
      op (attempt + j) = .failure (.fatal i) →
      (retryAux op bd md eb attempt fuel).calls = j + 1 ∧
      (retryAux op bd md eb attempt fuel).result = .error (.fatal i) ∧
      (retryAux op bd md eb attempt fuel).sleeps.length = j := by
  intro fuel
  induction fuel with
  | zero =>
    intro attempt j i
    unfold retryAux
    rcases hop : op attempt with v | e'
    · simp only []
      intro hj hfat
      have hj0 : j = 0 := by omega
      subst hj0
      rw [Nat.add_zero] at hfat
      rw [hop] at hfat
      cases hfat
    · rcases e' with ra | k | k
      · simp only []
        intro hj hfat
        have hj0 : j = 0 := by omega
        subst hj0
        rw [Nat.add_zero] at hfat
        rw [hop] at hfat
        simp at hfat
      · simp only []
        intro hj hfat
        have hj0 : j = 0 := by omega
        subst hj0
        rw [Nat.add_zero] at hfat
        rw [hop] at hfat
        simp at hfat
      · simp only []
        intro hj hfat
        have hj0 : j = 0 := by omega
        subst hj0
        rw [Nat.add_zero] at hfat
        rw [hop] at hfat
        cases hfat
        simp
  | succ f ih =>
    intro attempt j i
    unfold retryAux
    rcases hop : op attempt with v | e'
    · simp only []
      intro hj hfat
      have hj0 : j = 0 := by omega
      subst hj0
      rw [Nat.add_zero] at hfat
      rw [hop] at hfat
      cases hfat
    · rcases e' with ra | k | k
      · simp only []
        intro hj hfat
        match j with
        | 0 =>
          rw [Nat.add_zero] at hfat
          rw [hop] at hfat
          cases hfat
        | j' + 1 =>
          have harith : attempt + (j' + 1) = attempt + 1 + j' := by omega
          rw [harith] at hfat
          have hj' : j' < (retryAux op bd md eb (attempt + 1) f).calls := by
            simp at hj
            omega
          have h := ih (attempt + 1) j' i hj' hfat
          refine ⟨by simp [h.1], by simp [h.2.1], by simp [h.2.2]⟩
      · simp only []
        intro hj hfat
        match j with
        | 0 =>
          rw [Nat.add_zero] at hfat
          rw [hop] at hfat
          cases hfat
        | j' + 1 =>
          have harith : attempt + (j' + 1) = attempt + 1 + j' := by omega
          rw [harith] at hfat
          have hj' : j' < (retryAux op bd md eb (attempt + 1) f).calls := by
            simp at hj
            omega
          have h := ih (attempt + 1) j' i hj' hfat
          refine ⟨by simp [h.1], by simp [h.2.1], by simp [h.2.2]⟩
      · simp only []
        intro hj hfat
        have hj0 : j = 0 := by omega
        subst hj0
        rw [Nat.add_zero] at hfat
        rw [hop] at hfat
        cases hfat
        simp

theorem assocGet_none_of_all_ne {α : Type} (l : List (String × α)) (k : String)
    (h : ∀ p ∈ l, p.1 ≠ k) : assocGet l k = none := by
  induction l with
  | nil => rfl
  | cons p rest ih =>
    have hp := h p (by simp)
    simp only [assocGet, if_neg hp]
    exact ih (fun q hq => h q (by simp [hq]))

theorem assocGet_append_some {α : Type} (l e : List (String × α)) (k : String)
    (v : α) (h : assocGet l k = some v) : assocGet (l ++ e) k = some v := by
  rw [assocGet_append, h]

/-- How the apply phases may change the ledger: only by appending synced
keys and excluded bindings drawn from a given key set; every other field is
untouched.  This is the frame fact behind the per-group dispatch claims. -/
def LedgerGrows (st st' : SyncState) (ks : List String) : Prop :=
  (∃ s2, st'.synced_activities = st.synced_activities ++ s2 ∧
    ∀ k ∈ s2, k ∈ ks) ∧
  (∃ e2, st'.excluded_activities = st.excluded_activities ++ e2 ∧
    ∀ p ∈ e2, p.1 ∈ ks)

theorem grows_refl (st : SyncState) (ks : List String) :
    LedgerGrows st st ks :=
  ⟨⟨[], by simp⟩, ⟨[], by simp⟩⟩

theorem grows_trans {st st1 st2 : SyncState} {ks : List String}
    (h1 : LedgerGrows st st1 ks) (h2 : LedgerGrows st1 st2 ks) :
    LedgerGrows st st2 ks := by
  obtain ⟨⟨s2, hs2, hs2k⟩, ⟨e2, he2, he2k⟩⟩ := h1
  obtain ⟨⟨s3, hs3, hs3k⟩, ⟨e3, he3, he3k⟩⟩ := h2
  refine ⟨⟨s2 ++ s3, ?_, ?_⟩, ⟨e2 ++ e3, ?_, ?_⟩⟩
  · rw [hs3, hs2, List.append_assoc]
  · intro k hk
    rcases List.mem_append.mp hk with h | h
    · exact hs2k k h
    · exact hs3k k h
  · rw [he3, he2, List.append_assoc]
  · intro p hp
    rcases List.mem_append.mp hp with h | h
    · exact he2k p h
    · exact he3k p h

theorem grows_mark (st : SyncState) (a : WatchActivity) (ks : List String)
    (h : a.key ∈ ks) : LedgerGrows st (st.mark_synced a) ks := by
  unfold SyncState.mark_synced
  by_cases hc : a.key ∈ st.synced_activities
  · simp only [if_pos hc]
    exact grows_refl st ks
  · simp only [if_neg hc]
    exact ⟨⟨[a.key], rfl, by simpa using h⟩, ⟨[], by simp⟩⟩

theorem grows_exclude (st : SyncState) (a : WatchActivity) (r : String)
    (ks : List String) (h : a.key ∈ ks) :
    LedgerGrows st (st.exclude_activity a r) ks := by
  unfold SyncState.exclude_activity
  by_cases hc : (assocGet st.excluded_activities a.key).isSome
  · simp only [if_pos hc]
    exact grows_refl st ks
  · simp only [if_neg hc]
    exact ⟨⟨[], by simp [SyncState.increment_stat]⟩,
      ⟨[(a.key, r)], by simp [SyncState.increment_stat], by simpa using h⟩⟩

theorem grows_exclude_batch (l : List WatchActivity) :
    ∀ (st : SyncState) (r : String) (ks : List String),
      (∀ a ∈ l, a.key ∈ ks) →
      LedgerGrows st (st.exclude_activities_batch l r) ks := by
  induction l with
  | nil => intro st r ks _; exact grows_refl st ks
  | cons a rest ih =>
    intro st r ks h
    have h1 := grows_exclude st a r ks (h a (by simp))
    have h2 := ih (st.exclude_activity a r) r ks
      (fun b hb => h b (by simp [hb]))
    exact grows_trans h1 h2

theorem mark_synced_batch_grows (l : List WatchActivity) :
    ∀ (st : SyncState) (ks : List String), (∀ a ∈ l, a.key ∈ ks) →
      LedgerGrows st (st.mark_synced_batch l) ks := by
  induction l with
  | nil => intro st ks _; exact grows_refl st ks
  | cons a rest ih =>
    intro st ks h
    exact grows_trans (grows_mark st a ks (h a (by simp)))
      (ih (st.mark_synced a) ks (fun b hb => h b (by simp [hb])))

theorem grows_preserves_lookup {st st' : SyncState} {ks : List String}
    (hg : LedgerGrows st st' ks) (k : String) (v : String)
    (h : assocGet st.excluded_activities k = some v) :
    assocGet st'.excluded_activities k = some v := by
  obtain ⟨_, ⟨e2, he2, _⟩⟩ := hg
  rw [he2]
  exact assocGet_append_some _ _ _ _ h

theorem grows_lookup_of_notin {st st' : SyncState} {ks : List String}
    (hg : LedgerGrows st st' ks) (k : String) (hk : k ∉ ks) :
    assocGet st'.excluded_activities k = assocGet st.excluded_activities k := by
  obtain ⟨_, ⟨e2, he2, he2k⟩⟩ := hg
  rw [he2, assocGet_append]
  have hnone : assocGet e2 k = none :=
    assocGet_none_of_all_ne e2 k (fun p hp heq => hk (heq ▸ he2k p hp))
  cases hc : assocGet st.excluded_activities k <;> simp [hnone]

theorem grows_synced_of_notin {st st' : SyncState} {ks : List String}
    (hg : LedgerGrows st st' ks) (k : String) (hk : k ∉ ks) :
    (k ∈ st'.synced_activities ↔ k ∈ st.synced_activities) := by
  obtain ⟨⟨s2, hs2, hs2k⟩, _⟩ := hg
  rw [hs2]
  constructor
  · intro h
    rcases List.mem_append.mp h with h | h
    · exact h
    · exact absurd (hs2k k h) hk
  · intro h
    exact List.mem_append.mpr (Or.inl h)

theorem grows_not_synced {st st' : SyncState} {ks : List String}
    (hg : LedgerGrows st st' ks) (a : WatchActivity) (hk : a.key ∉ ks)
    (h : ¬ st.is_synced a) : ¬ st'.is_synced a := by
  unfold SyncState.is_synced at h ⊢
  rw [grows_synced_of_notin hg a.key hk, grows_lookup_of_notin hg a.key hk]
  exact h

theorem exclude_activity_synced (st : SyncState) (a : WatchActivity)
    (r : String) :
    (st.exclude_activity a r).synced_activities = st.synced_activities := by
  unfold SyncState.exclude_activity
  by_cases hc : (assocGet st.excluded_activities a.key).isSome <;>
    simp [hc, SyncState.increment_stat]

theorem exclude_batch_synced (l : List WatchActivity) :
    ∀ (st : SyncState) (r : String),
      (st.exclude_activities_batch l r).synced_activities =
        st.synced_activities := by
  induction l with
  | nil => intro st r; rfl
  | cons a rest ih =>
    intro st r
    show ((st.exclude_activity a r).exclude_activities_batch rest
      r).synced_activities = _
    rw [ih, exclude_activity_synced]

theorem exclude_batch_lookup (l : List WatchActivity) :
    ∀ (st : SyncState) (r : String),
      ((l.map (fun a => a.key)).Nodup) →
      (∀ a ∈ l, assocGet st.excluded_activities a.key = none) →
      ∀ a ∈ l, assocGet
        (st.exclude_activities_batch l r).excluded_activities a.key =
          some r := by
  induction l with
  | nil => intro st r _ _ a ha; simp at ha
  | cons a0 rest ih =>
    intro st r hnodup hfresh a ha
    have hfresh0 : assocGet st.excluded_activities a0.key = none :=
      hfresh a0 (by simp)
    have hstep : (st.exclude_activity a0 r).excluded_activities =
        st.excluded_activities ++ [(a0.key, r)] := by
      unfold SyncState.exclude_activity
      rw [if_neg (by simp [hfresh0])]
      simp [SyncState.increment_stat]
    have hnodup' := hnodup
    simp only [List.map_cons, List.nodup_cons] at hnodup'
    rcases List.mem_cons.mp ha with rfl | ha'
    · have hlook1 : assocGet
          (st.exclude_activity a r).excluded_activities a.key = some r := by
        rw [hstep, assocGet_append, hfresh0]
        simp [assocGet]
      have hgrow := grows_exclude_batch rest (st.exclude_activity a r) r
        (rest.map (fun b => b.key)) (fun b hb => List.mem_map_of_mem _ hb)
      exact grows_preserves_lookup hgrow a.key r hlook1
    · have hne : a.key ≠ a0.key := by
        intro heq
        exact hnodup'.1 (heq ▸ List.mem_map_of_mem _ ha')
      have hfresh' : ∀ b ∈ rest,
          assocGet (st.exclude_activity a0 r).excluded_activities b.key =
            none := by
        intro b hb
        rw [hstep, assocGet_append, hfresh b (by simp [hb])]
        by_cases hbk : b.key = a0.key
        · exfalso
          have : a0.key ∈ rest.map (fun x => x.key) :=
            hbk ▸ List.mem_map_of_mem _ hb
          exact hnodup'.1 this
        · have hba : a0.key ≠ b.key := fun heq => hbk heq.symm
          simp [assocGet, hba]
      exact ih (st.exclude_activity a0 r) r hnodup'.2 hfresh' a ha'

theorem s2sMembers_state (ad : WatchActivity → DiaryOutcome)
    (l : List WatchActivity) : ∀ st : SyncState,
    (s2sMembers ad l st).2.2.1 = st.mark_synced_batch l := by
  induction l with
  | nil => intro st; rfl
  | cons a rest ih =>
    intro st
    unfold s2sMembers
    cases h : ad a <;> simp only [h] <;> exact ih (st.mark_synced a)

theorem s2sMembers_writes (ad : WatchActivity → DiaryOutcome)
    (l : List WatchActivity) : ∀ st : SyncState,
    (s2sMembers ad l st).2.2.2 = l := by
  induction l with
  | nil => intro st; rfl
  | cons a rest ih =>
    intro st
    unfold s2sMembers
    cases h : ad a <;> simp only [h] <;> simp [ih (st.mark_synced a)]

/-- All member keys of a grouped batch, in group order. -/
def memberKeys (gs : List ((Nat × Nat) × List WatchActivity)) : List String :=
  (gs.map (fun g => g.2.map (fun a => a.key))).flatten

theorem memberKeys_cons (g : (Nat × Nat) × List WatchActivity)
    (rest : List ((Nat × Nat) × List WatchActivity)) :
    memberKeys (g :: rest) = g.2.map (fun a => a.key) ++ memberKeys rest := by
  simp [memberKeys]

theorem mem_memberKeys {gs : List ((Nat × Nat) × List WatchActivity)}
    {g : (Nat × Nat) × List WatchActivity} (hg : g ∈ gs)
    {a : WatchActivity} (ha : a ∈ g.2) : a.key ∈ memberKeys gs := by
  unfold memberKeys
  rw [List.mem_flatten]
  exact ⟨g.2.map (fun a => a.key), List.mem_map_of_mem _ hg,
    List.mem_map_of_mem _ ha⟩

theorem s2sGroups_cons_perm (ca : Nat → Nat → AvailAnswer)
    (ad : WatchActivity → DiaryOutcome)
    (g : (Nat × Nat) × List WatchActivity)
    (rest : List ((Nat × Nat) × List WatchActivity)) (st : SyncState)
    (r : String) (hav : (ca g.1.1 g.1.2).available = false)
    (hr : (ca g.1.1 g.1.2).reason = some r) (hne : r ≠ "") :
    s2sGroups ca ad (g :: rest) st =
      ⟨(s2sGroups ca ad rest (st.exclude_activities_batch g.2 r)).synced,
       (s2sGroups ca ad rest (st.exclude_activities_batch g.2 r)).excluded +
         g.2.length,
       (s2sGroups ca ad rest (st.exclude_activities_batch g.2 r)).failed,
       (s2sGroups ca ad rest (st.exclude_activities_batch g.2 r)).state,
       (g.1.1, g.1.2) ::
         (s2sGroups ca ad rest
           (st.exclude_activities_batch g.2 r)).availCalls,
       (s2sGroups ca ad rest
         (st.exclude_activities_batch g.2 r)).writeCalls⟩ := by
  simp only [s2sGroups]
  rw [hav, hr]
  simp [hne]

theorem s2sGroups_cons_trans (ca : Nat → Nat → AvailAnswer)
    (ad : WatchActivity → DiaryOutcome)
    (g : (Nat × Nat) × List WatchActivity)
    (rest : List ((Nat × Nat) × List WatchActivity)) (st : SyncState)
    (hav : (ca g.1.1 g.1.2).available = false)
    (hr : (ca g.1.1 g.1.2).reason = none ∨ (ca g.1.1 g.1.2).reason = some "") :
    s2sGroups ca ad (g :: rest) st =
      ⟨(s2sGroups ca ad rest st).synced,
       (s2sGroups ca ad rest st).excluded,
       (s2sGroups ca ad rest st).failed + g.2.length,
       (s2sGroups ca ad rest st).state,
       (g.1.1, g.1.2) :: (s2sGroups ca ad rest st).availCalls,
       (s2sGroups ca ad rest st).writeCalls⟩ := by
  simp only [s2sGroups]
  rcases hr with h | h <;> rw [hav, h] <;> simp

theorem s2sGroups_cons_avail (ca : Nat → Nat → AvailAnswer)
    (ad : WatchActivity → DiaryOutcome)
    (g : (Nat × Nat) × List WatchActivity)
    (rest : List ((Nat × Nat) × List WatchActivity)) (st : SyncState)
    (hav : (ca g.1.1 g.1.2).available = true) :
    s2sGroups ca ad (g :: rest) st =
      ⟨(s2sMembers ad g.2 st).1 +
         (s2sGroups ca ad rest (st.mark_synced_batch g.2)).synced,
       (s2sGroups ca ad rest (st.mark_synced_batch g.2)).excluded,
       (s2sMembers ad g.2 st).2.1 +
         (s2sGroups ca ad rest (st.mark_synced_batch g.2)).failed,
       (s2sGroups ca ad rest (st.mark_synced_batch g.2)).state,
       (g.1.1, g.1.2) ::
         (s2sGroups ca ad rest (st.mark_synced_batch g.2)).availCalls,
       g.2 ++ (s2sGroups ca ad rest
         (st.mark_synced_batch g.2)).writeCalls⟩ := by
  simp only [s2sGroups]
  rw [hav]
  simp [s2sMembers_state, s2sMembers_writes]

theorem s2sGroups_grows (ca : Nat → Nat → AvailAnswer)
    (ad : WatchActivity → DiaryOutcome)
    (gs : List ((Nat × Nat) × List WatchActivity)) :
    ∀ (st : SyncState) (ks : List String),
      (∀ g ∈ gs, ∀ a ∈ g.2, a.key ∈ ks) →
      LedgerGrows st (s2sGroups ca ad gs st).state ks := by
  induction gs with
  | nil => intro st ks _; exact grows_refl st ks
  | cons g rest ih =>
    intro st ks h
    have hrest : ∀ g' ∈ rest, ∀ a ∈ g'.2, a.key ∈ ks :=
      fun g' hg' a ha => h g' (by simp [hg']) a ha
    have hg : ∀ a ∈ g.2, a.key ∈ ks := h g (by simp)
    by_cases hav : (ca g.1.1 g.1.2).available = false
    · cases hr : (ca g.1.1 g.1.2).reason with
      | none =>
        rw [s2sGroups_cons_trans ca ad g rest st hav (Or.inl hr)]
        exact ih st ks hrest
      | some r =>
        by_cases hne : r = ""
        · subst hne
          rw [s2sGroups_cons_trans ca ad g rest st hav (Or.inr hr)]
          exact ih st ks hrest
        · rw [s2sGroups_cons_perm ca ad g rest st r hav hr hne]
          exact grows_trans (grows_exclude_batch g.2 st r ks hg)
            (ih _ ks hrest)
    · have hav' : (ca g.1.1 g.1.2).available = true := by
        cases hc : (ca g.1.1 g.1.2).available
        · exact absurd hc hav
        · rfl
      rw [s2sGroups_cons_avail ca ad g rest st hav']
      exact grows_trans (mark_synced_batch_grows g.2 st ks hg) (ih _ ks hrest)

theorem s2sGroups_availCalls (ca : Nat → Nat → AvailAnswer)
    (ad : WatchActivity → DiaryOutcome)
    (gs : List ((Nat × Nat) × List WatchActivity)) :
    ∀ st : SyncState,
      (s2sGroups ca ad gs st).availCalls = gs.map (fun g => g.1) := by
  induction gs with
  | nil => intro st; rfl
  | cons g rest ih =>
    intro st
    by_cases hav : (ca g.1.1 g.1.2).available = false
    · cases hr : (ca g.1.1 g.1.2).reason with
      | none =>
        rw [s2sGroups_cons_trans ca ad g rest st hav (Or.inl hr)]
        simp [ih st]
      | some r =>
        by_cases hne : r = ""
        · subst hne
          rw [s2sGroups_cons_trans ca ad g rest st hav (Or.inr hr)]
          simp [ih st]
        · rw [s2sGroups_cons_perm ca ad g rest st r hav hr hne]
          simp [ih _]
    · have hav' : (ca g.1.1 g.1.2).available = true := by
        cases hc : (ca g.1.1 g.1.2).available
        · exact absurd hc hav
        · rfl
      rw [s2sGroups_cons_avail ca ad g rest st hav']
      simp [ih _]

theorem s2sGroups_writeCalls (ca : Nat → Nat → AvailAnswer)
    (ad : WatchActivity → DiaryOutcome)
    (gs : List ((Nat × Nat) × List WatchActivity)) :
    ∀ st : SyncState,
      (s2sGroups ca ad gs st).writeCalls =
        ((gs.filter (fun g => (ca g.1.1 g.1.2).available)).map
          (fun g => g.2)).flatten := by
  induction gs with
  | nil => intro st; rfl
  | cons g rest ih =>
    intro st
    by_cases hav : (ca g.1.1 g.1.2).available = false
    · cases hr : (ca g.1.1 g.1.2).reason with
      | none =>
        rw [s2sGroups_cons_trans ca ad g rest st hav (Or.inl hr)]
        simp [List.filter_cons, hav, ih st]
      | some r =>
        by_cases hne : r = ""
        · subst hne
          rw [s2sGroups_cons_trans ca ad g rest st hav (Or.inr hr)]
          simp [List.filter_cons, hav, ih st]
        · rw [s2sGroups_cons_perm ca ad g rest st r hav hr hne]
          simp [List.filter_cons, hav, ih _]
    · have hav' : (ca g.1.1 g.1.2).available = true := by
        cases hc : (ca g.1.1 g.1.2).available
        · exact absurd hc hav
        · rfl
      rw [s2sGroups_cons_avail ca ad g rest st hav']
      simp [List.filter_cons, hav', ih _]

theorem not_handled_parts {st : SyncState} {a : WatchActivity}
    (h : ¬ st.is_synced a) :
    a.key ∉ st.synced_activities ∧
      assocGet st.excluded_activities a.key = none := by
  unfold SyncState.is_synced at h
  push_neg at h
  refine ⟨h.1, ?_⟩
  cases hc : assocGet st.excluded_activities a.key with
  | none => rfl
  | some v => exact absurd (by simp [hc]) h.2

theorem s2sGroups_permanent (ca : Nat → Nat → AvailAnswer)
    (ad : WatchActivity → DiaryOutcome)
    (gs : List ((Nat × Nat) × List WatchActivity)) :
    ∀ st : SyncState, (memberKeys gs).Nodup →
      (∀ g ∈ gs, ∀ a ∈ g.2, ¬ st.is_synced a) →
      ∀ g ∈ gs, ∀ r : String, (ca g.1.1 g.1.2).available = false →
        (ca g.1.1 g.1.2).reason = some r → r ≠ "" →
        ∀ a ∈ g.2,
          assocGet (s2sGroups ca ad gs st).state.excluded_activities a.key =
            some r ∧
          a.key ∉ (s2sGroups ca ad gs st).state.synced_activities := by
  induction gs with
  | nil => intro st _ _ g hg; simp at hg
  | cons g0 rest ih =>
    intro st hnodup hfresh g hg r hav hr hne a ha
    rw [memberKeys_cons] at hnodup
    obtain ⟨hn1, hn2, hdisj⟩ := List.nodup_append.mp hnodup
    have hfresh0 : ∀ b ∈ g0.2, ¬ st.is_synced b := hfresh g0 (by simp)
    have hfreshR : ∀ g' ∈ rest, ∀ b ∈ g'.2, ¬ st.is_synced b :=
      fun g' hg' b hb => hfresh g' (by simp [hg']) b hb
    by_cases hav0 : (ca g0.1.1 g0.1.2).available = false
    · cases hr0 : (ca g0.1.1 g0.1.2).reason with
      | none =>
        rw [s2sGroups_cons_trans ca ad g0 rest st hav0 (Or.inl hr0)]
        rcases List.mem_cons.mp hg with rfl | hg'
        · rw [hr0] at hr
          cases hr
        · exact ih st hn2 hfreshR g hg' r hav hr hne a ha
      | some r0 =>
        by_cases hr0e : r0 = ""
        · subst hr0e
          rw [s2sGroups_cons_trans ca ad g0 rest st hav0 (Or.inr hr0)]
          rcases List.mem_cons.mp hg with rfl | hg'
          · rw [hr0] at hr
            cases hr
            exact absurd rfl hne
          · exact ih st hn2 hfreshR g hg' r hav hr hne a ha
        · rw [s2sGroups_cons_perm ca ad g0 rest st r0 hav0 hr0 hr0e]
          have hfreshNone : ∀ b ∈ g0.2,
              assocGet st.excluded_activities b.key = none :=
            fun b hb => (not_handled_parts (hfresh0 b hb)).2
          have hgrowR := s2sGroups_grows ca ad rest
            (st.exclude_activities_batch g0.2 r0) (memberKeys rest)
            (fun g' hg' b hb => mem_memberKeys hg' hb)
          rcases List.mem_cons.mp hg with rfl | hg'
          · rw [hr0] at hr
            cases hr
            have hlook1 := exclude_batch_lookup g.2 st r hn1 hfreshNone a ha
            have hnotinR : a.key ∉ memberKeys rest :=
              fun hmem => hdisj (List.mem_map_of_mem _ ha) hmem
            refine ⟨grows_preserves_lookup hgrowR a.key r hlook1, ?_⟩
            rw [grows_synced_of_notin hgrowR a.key hnotinR,
              exclude_batch_synced]
            exact (not_handled_parts (hfresh0 a ha)).1
          · have hfresh1 : ∀ g' ∈ rest, ∀ b ∈ g'.2,
                ¬ (st.exclude_activities_batch g0.2 r0).is_synced b := by
              intro g' hg'' b hb
              have hgrow1 := grows_exclude_batch g0.2 st r0
                (g0.2.map (fun x => x.key))
                (fun c hc => List.mem_map_of_mem _ hc)
              have hnotin : b.key ∉ g0.2.map (fun x => x.key) := by
                intro hmem
                exact hdisj hmem (mem_memberKeys hg'' hb)
              exact grows_not_synced hgrow1 b hnotin (hfreshR g' hg'' b hb)
            exact ih _ hn2 hfresh1 g hg' r hav hr hne a ha
    · have hav0' : (ca g0.1.1 g0.1.2).available = true := by
        cases hc : (ca g0.1.1 g0.1.2).available
        · exact absurd hc hav0
        · rfl
      rw [s2sGroups_cons_avail ca ad g0 rest st hav0']
      rcases List.mem_cons.mp hg with rfl | hg'
      · rw [hav0'] at hav
        cases hav
      · have hfresh1 : ∀ g' ∈ rest, ∀ b ∈ g'.2,
            ¬ (st.mark_synced_batch g0.2).is_synced b := by
          intro g' hg'' b hb
          have hgrow1 := mark_synced_batch_grows g0.2 st
            (g0.2.map (fun x => x.key)) (fun c hc => List.mem_map_of_mem _ hc)
          have hnotin : b.key ∉ g0.2.map (fun x => x.key) := by
            intro hmem
            exact hdisj hmem (mem_memberKeys hg'' hb)
          exact grows_not_synced hgrow1 b hnotin (hfreshR g' hg'' b hb)
        exact ih _ hn2 hfresh1 g hg' r hav hr hne a ha

theorem s2sGroups_transient (ca : Nat → Nat → AvailAnswer)
    (ad : WatchActivity → DiaryOutcome)
    (gs : List ((Nat × Nat) × List WatchActivity)) :
    ∀ st : SyncState, (memberKeys gs).Nodup →
      (∀ g ∈ gs, ∀ a ∈ g.2, ¬ st.is_synced a) →
      ∀ g ∈ gs, (ca g.1.1 g.1.2).available = false →
        ((ca g.1.1 g.1.2).reason = none ∨
          (ca g.1.1 g.1.2).reason = some "") →
        ∀ a ∈ g.2, ¬ (s2sGroups ca ad gs st).state.is_synced a := by
  induction gs with
  | nil => intro st _ _ g hg; simp at hg
  | cons g0 rest ih =>
    intro st hnodup hfresh g hg hav hr a ha
    rw [memberKeys_cons] at hnodup
    obtain ⟨hn1, hn2, hdisj⟩ := List.nodup_append.mp hnodup
    have hfresh0 : ∀ b ∈ g0.2, ¬ st.is_synced b := hfresh g0 (by simp)
    have hfreshR : ∀ g' ∈ rest, ∀ b ∈ g'.2, ¬ st.is_synced b :=
      fun g' hg' b hb => hfresh g' (by simp [hg']) b hb
    by_cases hav0 : (ca g0.1.1 g0.1.2).available = false
    · cases hr0 : (ca g0.1.1 g0.1.2).reason with
      | none =>
        rw [s2sGroups_cons_trans ca ad g0 rest st hav0 (Or.inl hr0)]
        rcases List.mem_cons.mp hg with rfl | hg'
        · have hgrowR := s2sGroups_grows ca ad rest st (memberKeys rest)
            (fun g' hg' b hb => mem_memberKeys hg' hb)
          have hnotinR : a.key ∉ memberKeys rest :=
            fun hmem => hdisj (List.mem_map_of_mem _ ha) hmem
          exact grows_not_synced hgrowR a hnotinR (hfresh0 a ha)
        · exact ih st hn2 hfreshR g hg' hav hr a ha
      | some r0 =>
        by_cases hr0e : r0 = ""
        · subst hr0e
          rw [s2sGroups_cons_trans ca ad g0 rest st hav0 (Or.inr hr0)]
          rcases List.mem_cons.mp hg with rfl | hg'
          · have hgrowR := s2sGroups_grows ca ad rest st (memberKeys rest)
              (fun g' hg' b hb => mem_memberKeys hg' hb)
            have hnotinR : a.key ∉ memberKeys rest :=
              fun hmem => hdisj (List.mem_map_of_mem _ ha) hmem
            exact grows_not_synced hgrowR a hnotinR (hfresh0 a ha)
          · exact ih st hn2 hfreshR g hg' hav hr a ha
        · rw [s2sGroups_cons_perm ca ad g0 rest st r0 hav0 hr0 hr0e]
          rcases List.mem_cons.mp hg with rfl | hg'
          · rw [hr0] at hr
            rcases hr with h | h
            · cases h
            · cases h
              exact absurd rfl hr0e
          · have hfresh1 : ∀ g' ∈ rest, ∀ b ∈ g'.2,
                ¬ (st.exclude_activities_batch g0.2 r0).is_synced b := by
              intro g' hg'' b hb
              have hgrow1 := grows_exclude_batch g0.2 st r0
                (g0.2.map (fun x => x.key))
                (fun c hc => List.mem_map_of_mem _ hc)
              have hnotin : b.key ∉ g0.2.map (fun x => x.key) := by
                intro hmem
                exact hdisj hmem (mem_memberKeys hg'' hb)
              exact grows_not_synced hgrow1 b hnotin (hfreshR g' hg'' b hb)
            exact ih _ hn2 hfresh1 g hg' hav hr a ha
    · have hav0' : (ca g0.1.1 g0.1.2).available = true := by
        cases hc : (ca g0.1.1 g0.1.2).available
        · exact absurd hc hav0
        · rfl
      rw [s2sGroups_cons_avail ca ad g0 rest st hav0']
      rcases List.mem_cons.mp hg with rfl | hg'
      · rw [hav0'] at hav
        cases hav
      · have hfresh1 : ∀ g' ∈ rest, ∀ b ∈ g'.2,
            ¬ (st.mark_synced_batch g0.2).is_synced b := by
          intro g' hg'' b hb
          have hgrow1 := mark_synced_batch_grows g0.2 st
            (g0.2.map (fun x => x.key)) (fun c hc => List.mem_map_of_mem _ hc)
          have hnotin : b.key ∉ g0.2.map (fun x => x.key) := by
            intro hmem
            exact hdisj hmem (mem_memberKeys hg'' hb)
          exact grows_not_synced hgrow1 b hnotin (hfreshR g' hg'' b hb)
        exact ih _ hn2 hfresh1 g hg' hav hr a ha

theorem groupKeys_aux_nodup (acts : List WatchActivity) :
    ∀ ks0 : List (Nat × Nat), ks0.Nodup →
      (acts.foldl (fun ks a =>
        if (a.tmdb_show_id, a.season_number) ∈ ks then ks
        else ks ++ [(a.tmdb_show_id, a.season_number)]) ks0).Nodup := by
  induction acts with
  | nil => intro ks0 h; exact h
  | cons a rest ih =>
    intro ks0 h
    simp only [List.foldl_cons]
    by_cases hc : (a.tmdb_show_id, a.season_number) ∈ ks0
    · rw [if_pos hc]
      exact ih ks0 h
    · rw [if_neg hc]
      refine ih _ (List.nodup_append.mpr ⟨h, List.nodup_singleton _, ?_⟩)
      intro x hx hx1
      simp at hx1
      exact hc (hx1 ▸ hx)

theorem groupKeys_nodup (acts : List WatchActivity) :
    (groupKeys acts).Nodup :=
  groupKeys_aux_nodup acts [] List.nodup_nil

theorem groupBySeason_members {acts : List WatchActivity}
    {g : (Nat × Nat) × List WatchActivity} (hg : g ∈ groupBySeason acts) :
    ∀ a ∈ g.2, a ∈ acts ∧ (a.tmdb_show_id, a.season_number) = g.1 := by
  intro a ha
  unfold groupBySeason at hg
  obtain ⟨k, _, hk⟩ := List.mem_map.mp hg
  subst hk
  simp only [List.mem_filter] at ha
  exact ⟨ha.1, by simpa using ha.2⟩

theorem memberKeys_groupBySeason_nodup (acts : List WatchActivity)
    (hnodup : (acts.map (fun a => a.key)).Nodup) :
    (memberKeys (groupBySeason acts)).Nodup := by
  have hinj : ∀ a ∈ acts, ∀ b ∈ acts, a.key = b.key → a = b :=
    fun a ha b hb h => List.inj_on_of_nodup_map hnodup ha hb h
  unfold memberKeys groupBySeason
  rw [List.map_map]
  rw [List.nodup_flatten]
  constructor
  · intro l hl
    obtain ⟨k, _, hk⟩ := List.mem_map.mp hl
    subst hk
    simp only [Function.comp]
    exact List.Nodup.sublist
      (List.Sublist.map _ (List.filter_sublist acts)) hnodup
  · have hkn := groupKeys_nodup acts
    refine List.Pairwise.map _ ?_ hkn
    intro k k' hne x hx hx'
    simp only [Function.comp, List.mem_map] at hx hx'
    obtain ⟨a, ha, hak⟩ := hx
    obtain ⟨b, hb, hbk⟩ := hx'
    rw [List.mem_filter] at ha hb
    have hab : a = b := hinj a ha.1 b hb.1 (by rw [hak, hbk])
    apply hne
    have h1 : (a.tmdb_show_id, a.season_number) = k := by simpa using ha.2
    have h2 : (b.tmdb_show_id, b.season_number) = k' := by simpa using hb.2
    rw [← h1, ← h2, hab]

theorem assocGet_mem {α : Type} (l : List (String × α)) (k : String) (v : α)
    (h : assocGet l k = some v) : (k, v) ∈ l := by
  induction l with
  | nil => cases h
  | cons p rest ih =>
    by_cases hp : p.1 = k
    · simp only [assocGet, if_pos hp] at h
      cases h
      have hpe : (k, p.2) = p := by rw [← hp]
      rw [hpe]
      exact List.mem_cons_self _ _
    · simp only [assocGet, if_neg hp] at h
      exact List.mem_cons_of_mem _ (ih h)

/-- C3: rating conversion between the two platform encodings is lossless in
both directions: the 0-encoded side writes 'unset' as 0 and reads 0 back as
null, values 1 to 10 pass through unchanged, and the round trip restores
the original rating, the no-rating case included. -/
theorem rating_conversion_lossless :
    ratingToSerializd none = 0 ∧
    ratingToActivity 0 = none ∧
    (∀ k : Int, 1 ≤ k → k ≤ 10 →
      ratingToSerializd (some k) = k ∧ ratingToActivity k = some k) ∧
    (∀ r : Option Int,
      (r = none ∨ ∃ k : Int, r = some k ∧ 1 ≤ k ∧ k ≤ 10) →
      ratingToActivity (ratingToSerializd r) = r) ∧
    (∀ n : Int, 0 ≤ n → n ≤ 10 →
      ratingToSerializd (ratingToActivity n) = n) := by
  refine ⟨rfl, rfl, ?_, ?_, ?_⟩
  · intro k h1 h10
    exact ⟨rfl, by simp [ratingToActivity]; omega⟩
  · intro r hr
    rcases hr with rfl | ⟨k, rfl, h1, h10⟩
    · rfl
    · simp [ratingToSerializd, ratingToActivity]
      omega
  · intro n h0 h10
    unfold ratingToActivity
    by_cases hp : n > 0
    · simp [hp, ratingToSerializd]
    · simp [hp, ratingToSerializd]
      omega

/-- C8: ledger insertions are idempotent: re-marking an already synced
activity leaves the state (hence the synced count) unchanged, a batch
re-mark is a no-op, a fresh exclusion grows the excluded map and the
excluded counter by exactly one, and re-excluding an already excluded key
changes nothing. -/
theorem ledger_insert_idempotent (st : SyncState) (a : WatchActivity)
    (l : List WatchActivity) (r r2 : String) :
    ((st.mark_synced a).mark_synced a = st.mark_synced a) ∧
    (((st.mark_synced a).mark_synced a).synced_count =
      (st.mark_synced a).synced_count) ∧
    ((st.mark_synced_batch l).mark_synced_batch l = st.mark_synced_batch l) ∧
    (assocGet st.excluded_activities a.key = none →
      (st.exclude_activity a r).excluded_count = st.excluded_count + 1 ∧
      (st.exclude_activity a r).statsGet "excluded" =
        st.statsGet "excluded" + 1) ∧
    ((st.exclude_activity a r).exclude_activity a r2 =
      st.exclude_activity a r) := by
  refine ⟨mark_synced_idem st a, by rw [mark_synced_idem st a],
    mark_synced_batch_idem st l, ?_, ?_⟩
  · intro hfresh
    obtain ⟨he, hc, _⟩ := exclude_activity_fresh st a r hfresh
    constructor
    · unfold SyncState.excluded_count
      rw [he]
      simp
    · exact hc
  · exact exclude_activity_of_mem _ a r2 (exclude_activity_mem st a r)

/-- C9: two activities have equal identity keys exactly when they agree on
show id, season, episode and the calendar day of the watched timestamp;
time-of-day, source, rating and the rewatch flag never enter the key, so
structural equality and the hash agree with the key, and different
calendar days force different keys.  The bounds are the validity range of
a Python datetime date. -/
theorem identity_key_characterization (a b : WatchActivity)
    (hay : a.watched_at.year < 10000) (ham : a.watched_at.month < 100)
    (had : a.watched_at.day < 100) (hby : b.watched_at.year < 10000)
    (hbm : b.watched_at.month < 100) (hbd : b.watched_at.day < 100) :
    (a.key = b.key ↔
      (a.tmdb_show_id = b.tmdb_show_id ∧ a.season_number = b.season_number ∧
        a.episode_number = b.episode_number ∧
        a.watched_at.year = b.watched_at.year ∧
        a.watched_at.month = b.watched_at.month ∧
        a.watched_at.day = b.watched_at.day)) ∧
    (a.pyEq b = true ↔ a.key = b.key) ∧
    (a.key = b.key → a.hashVal = b.hashVal) := by
  refine ⟨key_eq_iff a b hay ham had hby hbm hbd, ?_, ?_⟩
  · simp [WatchActivity.pyEq]
  · intro h
    unfold WatchActivity.hashVal
    rw [h]

/-- Sample activities for the identity-key witness: same episode and
calendar day with different time-of-day, rating, rewatch flag and source. -/
def actW1 : WatchActivity :=
  { tmdb_show_id := 12345, season_number := 1, episode_number := 5,
    watched_at := ⟨2025, 1, 15, 20, 30, 0, 0⟩, is_rewatch := false,
    rating := some 8, source := "trakt" }

def actW2 : WatchActivity :=
  { tmdb_show_id := 12345, season_number := 1, episode_number := 5,
    watched_at := ⟨2025, 1, 15, 9, 0, 0, 0⟩, is_rewatch := true,
    rating := none, source := "serializd" }

/-- Witness for C9 at two concrete activities. -/
theorem identity_key_characterization_witness :
    (actW1.key = actW2.key ↔
      (actW1.tmdb_show_id = actW2.tmdb_show_id ∧
        actW1.season_number = actW2.season_number ∧
        actW1.episode_number = actW2.episode_number ∧
        actW1.watched_at.year = actW2.watched_at.year ∧
        actW1.watched_at.month = actW2.watched_at.month ∧
        actW1.watched_at.day = actW2.watched_at.day)) ∧
    (actW1.pyEq actW2 = true ↔ actW1.key = actW2.key) ∧
    (actW1.key = actW2.key → actW1.hashVal = actW2.hashVal) :=
  identity_key_characterization actW1 actW2 (by decide) (by decide)
    (by decide) (by decide) (by decide) (by decide)

/-- C10: with dry_run set, both apply phases return 0 and do nothing: no
availability, diary, history or rating call is made, and the ledger is
returned exactly as given. -/
theorem dry_run_no_effect (ca : Nat → Nat → AvailAnswer)
    (ad : WatchActivity → DiaryOutcome)
    (ah : List WatchActivity → TraktAddOutcome)
    (ar : WatchActivity → RatingOutcome) (acts : List WatchActivity)
    (st : SyncState) :
    sync_to_serializd true ca ad acts st =
      ⟨0, 0, 0, st, [], []⟩ ∧
    sync_to_trakt true ah ar acts st = ⟨0, st, [], [], 0⟩ :=
  ⟨rfl, rfl⟩

/-- C6: when the bulk add-to-history call raises, every activity of the
batch is still marked synced and the phase returns zero successes; items a
successful bulk call reports as not found are likewise marked synced (the
whole batch is).  Marked-synced activities satisfy the ledger predicate
the next pass filters on. -/
theorem sync_to_trakt_failure_marks
    (addHist : List WatchActivity → TraktAddOutcome)
    (addRating : WatchActivity → RatingOutcome)
    (acts : List WatchActivity) (st : SyncState) :
    (addHist acts = .error →
      (sync_to_trakt false addHist addRating acts st).added = 0 ∧
      ∀ a ∈ acts,
        (sync_to_trakt false addHist addRating acts st).state.is_synced a) ∧
    (∀ (n : Nat) (nf : List String), addHist acts = .ok n nf →
      ∀ a ∈ acts,
        (sync_to_trakt false addHist addRating acts st).state.is_synced a) := by
  constructor
  · intro herr
    unfold sync_to_trakt
    by_cases hemp : acts.isEmpty
    · constructor
      · simp [hemp]
      · intro a ha
        rw [List.isEmpty_iff] at hemp
        subst hemp
        simp at ha
    · rw [if_neg (by simp : ¬ (false = true)), if_neg hemp, herr]
      constructor
      · rfl
      · intro a ha
        exact Or.inl (mark_synced_batch_mem acts st a ha)
  · intro n nf hok a ha
    unfold sync_to_trakt
    by_cases hemp : acts.isEmpty
    · rw [List.isEmpty_iff] at hemp
      subst hemp
      simp at ha
    · rw [if_neg (by simp : ¬ (false = true)), if_neg hemp, hok]
      exact Or.inl (mark_synced_batch_mem acts st a ha)

/-- C7: with both indices built, a conflict is recorded for a key present
on both sides exactly when both ratings are non-null and differ, and under
the newest-wins strategy every conflict yields exactly one scheduled push:
the Trakt side goes to Serializd when its full-precision watched timestamp
is greater than or equal to the Serializd one, otherwise the Serializd
side goes to Trakt. -/
theorem conflict_detection_resolution
    (tm sm : List (String × WatchActivity))
    (cs : List (WatchActivity × WatchActivity)) :
    (∀ (k : String) (t s : WatchActivity),
      assocGet tm k = some t → assocGet sm k = some s →
      ((t, s) ∈ detect_conflicts tm sm ↔
        (t.rating ≠ none ∧ s.rating ≠ none ∧ t.rating ≠ s.rating))) ∧
    ((resolve_conflicts .newest_wins cs).1.length +
      (resolve_conflicts .newest_wins cs).2.length = cs.length) ∧
    ((resolve_conflicts .newest_wins cs).1 =
      (cs.filter (fun p =>
        decide (DateTime.Le p.2.watched_at p.1.watched_at))).map
          (fun p => p.1)) ∧
    ((resolve_conflicts .newest_wins cs).2 =
      (cs.filter (fun p =>
        decide (¬ DateTime.Le p.2.watched_at p.1.watched_at))).map
          (fun p => p.2)) := by
  refine ⟨?_, ?_, ?_, ?_⟩
  · intro k t s htm hsm
    constructor
    · intro hmem
      obtain ⟨p, _, hp⟩ := List.mem_filterMap.mp hmem
      rcases hlook : assocGet sm p.1 with _ | s'
      · rw [hlook] at hp
        cases hp
      · rw [hlook] at hp
        have hp' : (if p.2.rating ≠ s'.rating then
            if p.2.rating ≠ none ∧ s'.rating ≠ none then some (p.2, s')
            else none else none) = some (t, s) := hp
        by_cases hd : p.2.rating ≠ s'.rating
        · rw [if_pos hd] at hp'
          by_cases hb : p.2.rating ≠ none ∧ s'.rating ≠ none
          · rw [if_pos hb] at hp'
            cases hp'
            exact ⟨hb.1, hb.2, hd⟩
          · rw [if_neg hb] at hp'
            cases hp'
        · rw [if_neg hd] at hp'
          cases hp'
    · intro ⟨ht, hs, hd⟩
      apply List.mem_filterMap.mpr
      refine ⟨(k, t), assocGet_mem tm k t htm, ?_⟩
      simp only [hsm]
      rw [if_pos hd, if_pos ⟨ht, hs⟩]
  · induction cs with
    | nil => rfl
    | cons p rest ih =>
      show (resolve_conflicts .newest_wins (p :: rest)).1.length + _ = _
      rcases p with ⟨t, s⟩
      unfold resolve_conflicts
      by_cases hc : DateTime.Le s.watched_at t.watched_at
      · simp only [if_pos hc, List.length_cons]
        omega
      · simp only [if_neg hc, List.length_cons]
        omega
  · induction cs with
    | nil => rfl
    | cons p rest ih =>
      rcases p with ⟨t, s⟩
      unfold resolve_conflicts
      by_cases hc : DateTime.Le s.watched_at t.watched_at
      · simp [List.filter_cons, hc, ih]
      · simp [List.filter_cons, hc, ih]
  · induction cs with
    | nil => rfl
    | cons p rest ih =>
      rcases p with ⟨t, s⟩
      unfold resolve_conflicts
      by_cases hc : DateTime.Le s.watched_at t.watched_at
      · simp [List.filter_cons, hc, ih]
      · simp [List.filter_cons, hc, ih]

/-- C4: a fetch pass that returned at least one entry advances that
platform's watermark to the maximum timestamp among the returned entries
(which is one of them and bounds them all); an empty fetch leaves the
watermark unchanged; and under the adapter contract that no returned entry
is older than the stored watermark, the watermark never decreases. -/
theorem fetch_watermark_spec (st : SyncState)
    (history : List TraktHistoryEntry) (ratings : List (String × Int))
    (entries : List SerializdDiaryEntry) (now : DateTime) :
    (history = [] →
      (fetch_trakt_activities st history ratings now).1.trakt_last_watched =
        st.trakt_last_watched) ∧
    (∀ h hs, history = h :: hs →
      (fetch_trakt_activities st history ratings now).1.trakt_last_watched =
          some (pyMax h.watched_at (hs.map (fun e => e.watched_at))) ∧
      pyMax h.watched_at (hs.map (fun e => e.watched_at)) ∈
        history.map (fun e => e.watched_at) ∧
      ∀ e ∈ history, DateTime.Le e.watched_at
        (pyMax h.watched_at (hs.map (fun e => e.watched_at)))) ∧
    ((∀ w, st.trakt_last_watched = some w →
        ∀ e ∈ history, DateTime.Le w e.watched_at) →
      OLe st.trakt_last_watched
        (fetch_trakt_activities st history ratings now).1.trakt_last_watched) ∧
    (entries = [] →
      (fetch_serializd_activities st entries now).1.serializd_last_diary =
        st.serializd_last_diary) ∧
    (∀ e es, entries = e :: es →
      (fetch_serializd_activities st entries now).1.serializd_last_diary =
          some (pyMax e.date_added (es.map (fun x => x.date_added))) ∧
      pyMax e.date_added (es.map (fun x => x.date_added)) ∈
        entries.map (fun x => x.date_added) ∧
      ∀ x ∈ entries, DateTime.Le x.date_added
        (pyMax e.date_added (es.map (fun x => x.date_added)))) ∧
    ((∀ w, st.serializd_last_diary = some w →
        ∀ x ∈ entries, DateTime.Le w x.date_added) →
      OLe st.serializd_last_diary
        (fetch_serializd_activities st entries now).1.serializd_last_diary) := by
  refine ⟨?_, ?_, ?_, ?_, ?_, ?_⟩
  · intro h
    subst h
    rfl
  · intro h hs heq
    subst heq
    refine ⟨rfl, ?_, ?_⟩
    · simpa using pyMax_mem (hs.map (fun e => e.watched_at)) h.watched_at
    · intro e he
      apply pyMax_isUB (hs.map (fun e => e.watched_at)) h.watched_at
      simpa using List.mem_map_of_mem (fun e => e.watched_at) he
  · intro hc
    cases hw : st.trakt_last_watched with
    | none => cases history <;> simp [fetch_trakt_activities, OLe]
    | some w =>
      cases hh : history with
      | nil => simp [fetch_trakt_activities, OLe, hw, DateTime.Le_refl]
      | cons h hs =>
        have hmem := pyMax_mem (hs.map (fun e => e.watched_at)) h.watched_at
        have hmem' : pyMax h.watched_at (hs.map (fun e => e.watched_at)) ∈
            (h :: hs).map (fun e => e.watched_at) := by simpa using hmem
        obtain ⟨e, he, hew⟩ := List.mem_map.mp hmem'
        have hle : DateTime.Le w (pyMax h.watched_at
            (hs.map (fun e => e.watched_at))) := by
          rw [← hew]
          exact hc w hw e (hh ▸ he)
        simp [fetch_trakt_activities, OLe, hw, hle]
  · intro h
    subst h
    rfl
  · intro e es heq
    subst heq
    refine ⟨rfl, ?_, ?_⟩
    · simpa using pyMax_mem (es.map (fun x => x.date_added)) e.date_added
    · intro x hx
      apply pyMax_isUB (es.map (fun x => x.date_added)) e.date_added
      simpa using List.mem_map_of_mem (fun x => x.date_added) hx
  · intro hc
    cases hw : st.serializd_last_diary with
    | none => cases entries <;> simp [fetch_serializd_activities, OLe]
    | some w =>
      cases hh : entries with
      | nil => simp [fetch_serializd_activities, OLe, hw, DateTime.Le_refl]
      | cons e es =>
        have hmem := pyMax_mem (es.map (fun x => x.date_added)) e.date_added
        have hmem' : pyMax e.date_added (es.map (fun x => x.date_added)) ∈
            (e :: es).map (fun x => x.date_added) := by simpa using hmem
        obtain ⟨x, hx, hxw⟩ := List.mem_map.mp hmem'
        have hle : DateTime.Le w (pyMax e.date_added
            (es.map (fun x => x.date_added))) := by
          rw [← hxw]
          exact hc w hw x (hh ▸ hx)
        simp [fetch_serializd_activities, OLe, hw, hle]

/-- C5: the retry wrapper invokes the wrapped operation at most
max_retries + 1 times; before each retry after a rate-limited failure it
sleeps the server-specified delay capped at max_delay, and after another
designated transient failure the capped exponential backoff
base_delay times exponential_base to the attempt index; when the budget is
exhausted the final failure is re-raised unchanged; and a failure outside
the retryable set ends the run at once with no further attempt and no
sleep for it. -/
theorem retry_policy_spec {α : Type} (max_retries : Nat) (bd md eb : ℚ)
    (op : Nat → AttemptOutcome α) :
    ((retry_with_backoff max_retries bd md eb op).calls ≤ max_retries + 1) ∧
    ((retry_with_backoff max_retries bd md eb op).sleeps.length + 1 =
      (retry_with_backoff max_retries bd md eb op).calls) ∧
    (∀ j, j < (retry_with_backoff max_retries bd md eb op).sleeps.length →
      ((∃ ra, op j = .failure (.rateLimited ra) ∧
        (retry_with_backoff max_retries bd md eb op).sleeps.getD j 0 =
          min ra md) ∨
      (∃ i, op j = .failure (.transientErr i) ∧
        (retry_with_backoff max_retries bd md eb op).sleeps.getD j 0 =
          min (bd * eb ^ j) md))) ∧
    (∀ e, (retry_with_backoff max_retries bd md eb op).result = .error e →
      op ((retry_with_backoff max_retries bd md eb op).calls - 1) =
        .failure e) ∧
    (∀ j i, j < (retry_with_backoff max_retries bd md eb op).calls →
      op j = .failure (.fatal i) →
      (retry_with_backoff max_retries bd md eb op).calls = j + 1 ∧
      (retry_with_backoff max_retries bd md eb op).result =
        .error (.fatal i) ∧
      (retry_with_backoff max_retries bd md eb op).sleeps.length = j) := by
  refine ⟨retryAux_calls_le op bd md eb max_retries 0,
    retryAux_sleeps_len op bd md eb max_retries 0, ?_, ?_, ?_⟩
  · intro j hj
    have h := retryAux_sleeps_spec op bd md eb max_retries 0 j hj
    simpa [retry_with_backoff] using h
  · intro e he
    have h := retryAux_result_err op bd md eb max_retries 0 e he
    simpa [retry_with_backoff] using h
  · intro j i hj hf
    exact retryAux_fatal op bd md eb max_retries 0 j i hj (by simpa using hf)

/-- C2: the apply-to-Serializd phase queries the season-availability
adapter exactly once per pending (show, season) group; a permanent answer
(unavailable with a truthy reason string) batch-excludes every activity of
the group under that reason, leaving them handled so future passes skip
them until exclusions are cleared; a transient answer (unavailable with no
usable reason) leaves every activity of the group neither excluded nor
synced, eligible for retry; an available answer produces one individual
write attempt per activity of the group. -/
theorem season_availability_dispatch (ca : Nat → Nat → AvailAnswer)
    (ad : WatchActivity → DiaryOutcome) (acts : List WatchActivity)
    (st : SyncState)
    (hnodup : (acts.map (fun a => a.key)).Nodup)
    (hnew : ∀ a ∈ acts, ¬ st.is_synced a) :
    ((sync_to_serializd false ca ad acts st).availCalls =
      (groupBySeason acts).map (fun g => g.1)) ∧
    ((sync_to_serializd false ca ad acts st).writeCalls =
      (((groupBySeason acts).filter
        (fun g => (ca g.1.1 g.1.2).available)).map (fun g => g.2)).flatten) ∧
    (∀ g ∈ groupBySeason acts, ∀ r : String,
      (ca g.1.1 g.1.2).available = false →
      (ca g.1.1 g.1.2).reason = some r → r ≠ "" →
      ∀ a ∈ g.2,
        assocGet (sync_to_serializd false ca ad acts
          st).state.excluded_activities a.key = some r ∧
        a.key ∉ (sync_to_serializd false ca ad acts
          st).state.synced_activities ∧
        (sync_to_serializd false ca ad acts st).state.is_synced a) ∧
    (∀ g ∈ groupBySeason acts,
      (ca g.1.1 g.1.2).available = false →
      ((ca g.1.1 g.1.2).reason = none ∨ (ca g.1.1 g.1.2).reason = some "") →
      ∀ a ∈ g.2,
        ¬ (sync_to_serializd false ca ad acts st).state.is_synced a) := by
  have hmk : (memberKeys (groupBySeason acts)).Nodup :=
    memberKeys_groupBySeason_nodup acts hnodup
  have hfg : ∀ g ∈ groupBySeason acts, ∀ a ∈ g.2, ¬ st.is_synced a :=
    fun g hg a ha => hnew a (groupBySeason_members hg a ha).1
  have heq : sync_to_serializd false ca ad acts st =
      s2sGroups ca ad (groupBySeason acts) st := rfl
  rw [heq]
  refine ⟨s2sGroups_availCalls ca ad _ st, s2sGroups_writeCalls ca ad _ st,
    ?_, ?_⟩
  · intro g hg r hav hr hne a ha
    have h := s2sGroups_permanent ca ad (groupBySeason acts) st hmk hfg
      g hg r hav hr hne a ha
    refine ⟨h.1, h.2, ?_⟩
    unfold SyncState.is_synced
    exact Or.inr (by simp [h.1])
  · exact s2sGroups_transient ca ad (groupBySeason acts) st hmk hfg

/-- Concrete availability adapter for the dispatch witness: show 1 is
available, show 2 has a permanently missing season, show 3 fails
transiently. -/
def caW : Nat → Nat → AvailAnswer := fun showId _ =>
  if showId = 1 then ⟨true, none, some 10⟩
  else if showId = 2 then ⟨false, some "season_not_found", none⟩
  else ⟨false, none, none⟩

def adW : WatchActivity → DiaryOutcome := fun _ => .success

def actsW : List WatchActivity :=
  [{ tmdb_show_id := 1, season_number := 1, episode_number := 1,
     watched_at := ⟨2025, 1, 10, 0, 0, 0, 0⟩, is_rewatch := false,
     rating := none, source := "trakt" },
   { tmdb_show_id := 2, season_number := 1, episode_number := 1,
     watched_at := ⟨2025, 1, 11, 0, 0, 0, 0⟩, is_rewatch := false,
     rating := none, source := "trakt" },
   { tmdb_show_id := 3, season_number := 1, episode_number := 1,
     watched_at := ⟨2025, 1, 12, 0, 0, 0, 0⟩, is_rewatch := false,
     rating := none, source := "trakt" }]

/-- Witness for C2 at a concrete three-group batch over the fresh ledger. -/
theorem season_availability_dispatch_witness :
    (sync_to_serializd false caW adW actsW defaultState).availCalls =
      (groupBySeason actsW).map (fun g => g.1) :=
  (season_availability_dispatch caW adW actsW defaultState (by decide)
    (by decide)).1

/-- The scenario of the end-to-end claim: one Trakt activity for show
12345, season 1, episode 5, watched on 2025-01-15, rated 8, against
healthy adapters and a fresh ledger. -/
def actC1 : WatchActivity :=
  { tmdb_show_id := 12345, season_number := 1, episode_number := 5,
    watched_at := ⟨2025, 1, 15, 20, 0, 0, 0⟩, is_rewatch := false,
    rating := some 8, source := "trakt" }

def caOK : Nat → Nat → AvailAnswer := fun _ _ => ⟨true, none, some 77⟩

def adOK : WatchActivity → DiaryOutcome := fun _ => .success

def ahOK : List WatchActivity → TraktAddOutcome := fun l => .ok l.length []

def arOK : WatchActivity → RatingOutcome := fun _ => .ok

def nowC1 : DateTime := ⟨2025, 1, 16, 0, 0, 0, 0⟩

/-- C1: with direction both and any conflict strategy, when Trakt reports
exactly the one activity of `actC1` and Serializd reports none, the pass
returns one item moved to Serializd, none moved to Trakt and no conflicts,
and afterwards the ledger's synced set contains the key
12345:1:5:2025-01-15. -/
theorem sync_end_to_end (strategy : ConflictStrategy) :
    (SyncEngine.sync .both strategy false caOK adOK ahOK arOK nowC1 [actC1]
      [] defaultState).1 = ⟨1, 0, 0, 0, 0⟩ ∧
    "12345:1:5:2025-01-15" ∈ (SyncEngine.sync .both strategy false caOK
      adOK ahOK arOK nowC1 [actC1] [] defaultState).2.synced_activities := by
  cases strategy <;> exact ⟨by decide, by decide⟩
